import Mathlib

/-!
Verification of the account-local ledger engine of a privacy-preserving
blockchain wallet (the `Account` class of `src/ironfish/src/wallet/account.ts`).

The engine keeps four in-memory indices (decrypted notes, nullifier to note
hash, sequence to note-hash set, non-chain note set) plus a transaction table,
mirrored to a persisted key-value store, and maintains a running unconfirmed
balance.  Buffers (note hashes, nullifiers, block hashes, transaction hashes)
are modelled as natural numbers; the persisted store is carried inside the
state, every store write is additionally logged as a `WriteEvent`, and a failed
runtime assertion is modelled as `Except.error` carrying the assertion message
(the surrounding atomic database transaction rolls the call back, so a failed
call leaves no state change).
-/

namespace Wallet

/-- A decrypted note's raw payload.  Note decryption and value extraction are
external cryptographic primitives; the only operation the ledger performs on
the payload is reading its value, so the payload is modelled as that value. -/
abbrev SerializedNote := Int

/-- External primitive: `new Note(serializedNote).value()`. -/
def noteValue (serializedNote : SerializedNote) : Int := serializedNote

/-- The stored value of a decrypted note (`DecryptedNoteValue`). -/
structure DecryptedNoteValue where
  accountId : Nat
  nullifierHash : Option Nat
  noteIndex : Option Nat
  serializedNote : SerializedNote
  spent : Bool
  transactionHash : Nat
deriving DecidableEq, Repr

/-- External transaction primitive: the ledger reads its hash
(`unsignedHash()`), its spends' nullifiers (`spends()`), and its output notes'
merkle hashes (`notes()`, `merkleHash()`).  `Transaction.equals` compares the
serialized payload, modelled as structural equality. -/
structure Transaction where
  unsignedHash : Nat
  spends : List Nat
  notes : List Nat
deriving DecidableEq, Repr

/-- A stored transaction record. -/
structure TransactionRecord where
  transaction : Transaction
  blockHash : Option Nat
  sequence : Option Nat
  submittedSequence : Option Nat
deriving DecidableEq, Repr

/-- One element of the decrypted-note list passed to `syncTransaction`. -/
structure DecryptedNoteParams where
  noteIndex : Option Nat
  nullifier : Option Nat
  merkleHash : Nat
  forSpender : Bool
  serializedNote : SerializedNote
deriving DecidableEq, Repr

/-- The status payload of `syncTransaction` (`SyncTransactionParams`): each
field stands for the corresponding property being present in the payload. -/
structure SyncTransactionParams where
  blockHash : Option Nat
  sequence : Option Nat
  submittedSequence : Option Nat
deriving DecidableEq, Repr

/-- A logged write against the persisted store adapter. -/
inductive WriteEvent where
  | saveTransaction (hash : Nat)
  | saveDecryptedNote (noteHash : Nat)
  | saveNullifierNoteHash (nullifier : Nat)
  | saveUnconfirmedBalance (balance : Int)
  | deleteDecryptedNote (noteHash : Nat)
  | deleteNullifier (nullifier : Nat)
  | deleteTransaction (hash : Nat)
  | replaceDecryptedNotes
  | replaceNullifierToNoteHash
  | replaceTransactions
deriving DecidableEq, Repr

/-- The complete state of one account: the in-memory indices of the `Account`
class together with the contents of the persisted store backing it. -/
structure AccountState where
  id : Nat
  decryptedNotes : List (Nat × DecryptedNoteValue)
  nullifierToNoteHash : List (Nat × Nat)
  transactions : List (Nat × TransactionRecord)
  noteHashesBySequence : List (Nat × List Nat)
  nonChainNoteHashes : List Nat
  dbDecryptedNotes : List (Nat × DecryptedNoteValue)
  dbNullifierToNoteHash : List (Nat × Nat)
  dbTransactions : List (Nat × TransactionRecord)
  dbUnconfirmedBalance : Int
deriving DecidableEq, Repr

/-! ## Finite maps and sets

`BufferMap` and `BufferSet` are modelled as association lists and lists; the
first matching entry is the map's value for a key. -/

def mapFind {V : Type} : List (Nat × V) → Nat → Option V
  | [], _ => none
  | (k, v) :: rest, x => if x = k then some v else mapFind rest x

def mapErase {V : Type} : List (Nat × V) → Nat → List (Nat × V)
  | [], _ => []
  | (a, b) :: rest, k => if a = k then mapErase rest k else (a, b) :: mapErase rest k

def mapSet {V : Type} (m : List (Nat × V)) (k : Nat) (v : V) : List (Nat × V) :=
  (k, v) :: mapErase m k

def setAdd (s : List Nat) (x : Nat) : List Nat :=
  if x ∈ s then s else x :: s

def setRemove : List Nat → Nat → List Nat
  | [], _ => []
  | y :: rest, x => if y = x then setRemove rest x else y :: setRemove rest x

theorem mapFind_mapErase {V : Type} (m : List (Nat × V)) (k x : Nat) :
    mapFind (mapErase m k) x = if x = k then none else mapFind m x := by
  induction m with
  | nil => simp [mapErase, mapFind]
  | cons p rest ih =>
    cases p with
    | mk a b =>
      by_cases hak : a = k
      · rw [mapErase, if_pos hak, ih]
        by_cases hx : x = k
        · simp [hx]
        · rw [if_neg hx, if_neg hx, mapFind, if_neg (fun hc => hx (hak ▸ hc))]
      · rw [mapErase, if_neg hak, mapFind]
        by_cases hxa : x = a
        · rw [if_pos hxa]
          have hx : ¬x = k := fun hc => hak (hxa ▸ hc)
          rw [if_neg hx, mapFind, if_pos hxa]
        · rw [if_neg hxa, ih, mapFind, if_neg hxa]

theorem mapFind_mapSet {V : Type} (m : List (Nat × V)) (k : Nat) (v : V) (x : Nat) :
    mapFind (mapSet m k v) x = if x = k then some v else mapFind m x := by
  by_cases hx : x = k
  · simp [mapSet, mapFind, hx]
  · rw [mapSet, mapFind, if_neg hx, mapFind_mapErase, if_neg hx, if_neg hx]

theorem mem_setAdd (s : List Nat) (x y : Nat) :
    y ∈ setAdd s x ↔ y = x ∨ y ∈ s := by
  unfold setAdd
  by_cases hx : x ∈ s
  · simp only [if_pos hx]
    constructor
    · intro h; exact Or.inr h
    · intro h; cases h with
      | inl h => rw [h]; exact hx
      | inr h => exact h
  · simp [if_neg hx, List.mem_cons]

theorem mem_setRemove (s : List Nat) (x y : Nat) :
    y ∈ setRemove s x ↔ y ∈ s ∧ y ≠ x := by
  induction s with
  | nil => simp [setRemove]
  | cons z rest ih =>
    by_cases hz : z = x
    · rw [setRemove, if_pos hz, ih]
      subst hz
      simp only [List.mem_cons]
      constructor
      · intro h; exact ⟨Or.inr h.1, h.2⟩
      · intro h
        cases h.1 with
        | inl hc => exact absurd hc h.2
        | inr hr => exact ⟨hr, h.2⟩
    · rw [setRemove, if_neg hz]
      simp only [List.mem_cons, ih]
      constructor
      · intro h
        cases h with
        | inl hc => subst hc; exact ⟨Or.inl rfl, hz⟩
        | inr hr => exact ⟨Or.inr hr.1, hr.2⟩
      · intro h
        cases h.1 with
        | inl hc => exact Or.inl hc
        | inr hr => exact Or.inr ⟨hr, h.2⟩

/-! ## Assertion messages

Failed runtime assertions abort the operation; the enclosing atomic database
transaction rolls it back.  They are modelled as `Except.error` with the
message of the assertion in the source. -/

def transactionUndefinedMsg : String := "Transaction undefined"

def sequenceRequiredMsg : String := "sequence required when submitting block hash"

def nullifierNoteMsg : String :=
  "nullifierToNote mappings must have a corresponding decryptedNote"

def balanceNoteMissingMsg : String := "expected a decrypted note for the note hash"

/-! ## Store point writes

Modelled from the spec: `saveDecryptedNote`, `deleteDecryptedNote`,
`saveNullifierNoteHash`, `deleteNullifier`, `saveTransaction`,
`deleteTransaction` and `saveUnconfirmedBalance` of the `AccountsDB` adapter
are point writes against the persisted store, here applied to the `db` fields
of the state and logged as events. -/

/-- `Account.saveUnconfirmedBalance`: persists the balance. -/
def saveUnconfirmedBalance (s : AccountState) (balance : Int) :
    AccountState × List WriteEvent :=
  ({ s with dbUnconfirmedBalance := balance },
   [WriteEvent.saveUnconfirmedBalance balance])

/-- `Account.saveDecryptedNoteSequence`: recomputes the Sequence Index /
Non-chain Note Set membership of `noteHash` from its owning transaction's
block-hash status.  Asserts that the transaction record exists and that a
record with a block hash has a sequence. -/
def saveDecryptedNoteSequence (s : AccountState) (transactionHash noteHash : Nat) :
    Except String AccountState :=
  match mapFind s.transactions transactionHash with
  | none => Except.error transactionUndefinedMsg
  | some transaction =>
    match transaction.blockHash with
    | some _ =>
      match transaction.sequence with
      | none => Except.error sequenceRequiredMsg
      | some sequence =>
        let decryptedNotes := (mapFind s.noteHashesBySequence sequence).getD []
        Except.ok { s with
          noteHashesBySequence :=
            mapSet s.noteHashesBySequence sequence (setAdd decryptedNotes noteHash),
          nonChainNoteHashes := setRemove s.nonChainNoteHashes noteHash }
    | none =>
      Except.ok { s with nonChainNoteHashes := setAdd s.nonChainNoteHashes noteHash }

/-- The first half of `Account.updateDecryptedNote`: when the note is new or
its spent flag changed, the unconfirmed balance is read from the store,
adjusted by the new state's value, and persisted. -/
def balanceAdjust (s : AccountState) (noteHash : Nat)
    (note : DecryptedNoteValue) : AccountState × List WriteEvent :=
  match mapFind s.decryptedNotes noteHash with
  | none =>
    let value := noteValue note.serializedNote
    let currentUnconfirmedBalance := s.dbUnconfirmedBalance
    if note.spent then saveUnconfirmedBalance s (currentUnconfirmedBalance - value)
    else saveUnconfirmedBalance s (currentUnconfirmedBalance + value)
  | some existingNote =>
    if existingNote.spent = note.spent then (s, ([] : List WriteEvent))
    else
      let value := noteValue note.serializedNote
      let currentUnconfirmedBalance := s.dbUnconfirmedBalance
      if note.spent then saveUnconfirmedBalance s (currentUnconfirmedBalance - value)
      else saveUnconfirmedBalance s (currentUnconfirmedBalance + value)

/-- `Account.updateDecryptedNote`: adjusts the unconfirmed balance when the
note is new or its spent flag changed, recomputes the note's sequence-index
membership, and stores the new note state in memory and in the store. -/
def updateDecryptedNote (s : AccountState) (noteHash : Nat)
    (note : DecryptedNoteValue) : Except String (AccountState × List WriteEvent) :=
  let p := balanceAdjust s noteHash note
  match saveDecryptedNoteSequence p.1 note.transactionHash noteHash with
  | Except.error e => Except.error e
  | Except.ok s2 =>
    Except.ok
      ({ s2 with
          decryptedNotes := mapSet s2.decryptedNotes noteHash note,
          dbDecryptedNotes := mapSet s2.dbDecryptedNotes noteHash note },
        p.2 ++ [WriteEvent.saveDecryptedNote noteHash])

/-- `Account.updateNullifierNoteHash`. -/
def updateNullifierNoteHash (s : AccountState) (nullifier noteHash : Nat) :
    AccountState × List WriteEvent :=
  ({ s with
      nullifierToNoteHash := mapSet s.nullifierToNoteHash nullifier noteHash,
      dbNullifierToNoteHash := mapSet s.dbNullifierToNoteHash nullifier noteHash },
   [WriteEvent.saveNullifierNoteHash nullifier])

/-- `Account.deleteNullifier`. -/
def deleteNullifier (s : AccountState) (nullifier : Nat) :
    AccountState × List WriteEvent :=
  ({ s with
      nullifierToNoteHash := mapErase s.nullifierToNoteHash nullifier,
      dbNullifierToNoteHash := mapErase s.dbNullifierToNoteHash nullifier },
   [WriteEvent.deleteNullifier nullifier])

/-- `Account.updateTransaction`: stores a transaction record in memory and in
the store. -/
def updateTransaction (s : AccountState) (hash : Nat)
    (transactionValue : TransactionRecord) : AccountState × List WriteEvent :=
  ({ s with
      transactions := mapSet s.transactions hash transactionValue,
      dbTransactions := mapSet s.dbTransactions hash transactionValue },
   [WriteEvent.saveTransaction hash])

/-- `Account.bulkUpdateDecryptedNotes`: for every decrypted note not flagged
`forSpender`, registers its nullifier (when present) and upserts the note with
`spent := false`.  `aid` is the account's `this.id`. -/
def bulkUpdateDecryptedNotes (aid : Nat) (s : AccountState) (transactionHash : Nat) :
    List DecryptedNoteParams → Except String (AccountState × List WriteEvent)
  | [] => Except.ok (s, [])
  | decryptedNote :: rest =>
    if decryptedNote.forSpender then
      bulkUpdateDecryptedNotes aid s transactionHash rest
    else
      let p :=
        match decryptedNote.nullifier with
        | some nullifier => updateNullifierNoteHash s nullifier decryptedNote.merkleHash
        | none => (s, ([] : List WriteEvent))
      match updateDecryptedNote p.1 decryptedNote.merkleHash
          { accountId := aid,
            nullifierHash := decryptedNote.nullifier,
            noteIndex := decryptedNote.noteIndex,
            serializedNote := decryptedNote.serializedNote,
            spent := false,
            transactionHash := transactionHash } with
      | Except.error e => Except.error e
      | Except.ok (s2, w2) =>
        match bulkUpdateDecryptedNotes aid s2 transactionHash rest with
        | Except.error e => Except.error e
        | Except.ok (s3, w3) => Except.ok (s3, p.2 ++ w2 ++ w3)

/-- `Account.processTransactionSpends` over the transaction's spend
nullifiers: every spend whose nullifier resolves via the Nullifier Index has
its note's spent flag set to the negation of `isRemovingTransaction`; a
resolving nullifier whose note is missing is a failed assertion.
`deleteTransaction` inlines the same loop with the flag fixed to `false`,
which coincides with `isRemovingTransaction = true`. -/
def processTransactionSpends (s : AccountState) (isRemovingTransaction : Bool) :
    List Nat → Except String (AccountState × List WriteEvent)
  | [] => Except.ok (s, [])
  | nullifier :: rest =>
    match mapFind s.nullifierToNoteHash nullifier with
    | none => processTransactionSpends s isRemovingTransaction rest
    | some noteHash =>
      match mapFind s.decryptedNotes noteHash with
      | none => Except.error nullifierNoteMsg
      | some decryptedNote =>
        match updateDecryptedNote s noteHash
            { decryptedNote with spent := !isRemovingTransaction } with
        | Except.error e => Except.error e
        | Except.ok (s1, w1) =>
          match processTransactionSpends s1 isRemovingTransaction rest with
          | Except.error e => Except.error e
          | Except.ok (s2, w2) => Except.ok (s2, w1 ++ w2)

/-- The submitted sequence after merging the status payload with a prior
record for the same hash (the prior record's value wins). -/
def mergedSubmittedSequence (s : AccountState) (transaction : Transaction)
    (params : SyncTransactionParams) : Option Nat :=
  match mapFind s.transactions transaction.unsignedHash with
  | some record => record.submittedSequence
  | none => params.submittedSequence

/-- Whether a `syncTransaction` call represents a removal: neither a merged
submitted sequence nor a block hash. -/
def isRemovingFor (s : AccountState) (transaction : Transaction)
    (params : SyncTransactionParams) : Bool :=
  (mergedSubmittedSequence s transaction params).isNone && params.blockHash.isNone

/-- The record-upsert step of `Account.syncTransaction`: the record is written
only when there is none yet or its payload or block hash changed. -/
def upsertTransactionRecord (s : AccountState) (transaction : Transaction)
    (params : SyncTransactionParams) : AccountState × List WriteEvent :=
  let transactionHash := transaction.unsignedHash
  let blockHash := params.blockHash
  match mapFind s.transactions transactionHash with
  | none =>
    updateTransaction s transactionHash
      ⟨transaction, blockHash, params.sequence, mergedSubmittedSequence s transaction params⟩
  | some record =>
    if record.transaction = transaction ∧ record.blockHash = blockHash then
      (s, ([] : List WriteEvent))
    else
      updateTransaction s transactionHash
        ⟨transaction, blockHash, params.sequence, mergedSubmittedSequence s transaction params⟩

/-- `Account.syncTransaction`: upserts the transaction record when its payload
or block hash changed, upserts the received decrypted notes, and processes the
transaction's spends. -/
def syncTransaction (s : AccountState) (transaction : Transaction)
    (decryptedNotes : List DecryptedNoteParams) (params : SyncTransactionParams) :
    Except String (AccountState × List WriteEvent) :=
  let p := upsertTransactionRecord s transaction params
  let isRemovingTransaction := isRemovingFor s transaction params
  match bulkUpdateDecryptedNotes s.id p.1 transaction.unsignedHash decryptedNotes with
  | Except.error e => Except.error e
  | Except.ok (s2, w2) =>
    match processTransactionSpends s2 isRemovingTransaction transaction.spends with
    | Except.error e => Except.error e
    | Except.ok (s3, w3) => Except.ok (s3, p.2 ++ w2 ++ w3)

/-- `Account.deleteDecryptedNote`: reverses the note's balance contribution,
drops it from its owning transaction's sequence bucket and from the non-chain
set, and deletes it from memory and from the store. -/
def deleteBalanceAdjust (s : AccountState) (noteHash : Nat) :
    AccountState × List WriteEvent :=
  match mapFind s.decryptedNotes noteHash with
  | none => (s, ([] : List WriteEvent))
  | some existingNote =>
    let value := noteValue existingNote.serializedNote
    let currentUnconfirmedBalance := s.dbUnconfirmedBalance
    if existingNote.spent then
      saveUnconfirmedBalance s (currentUnconfirmedBalance + value)
    else
      saveUnconfirmedBalance s (currentUnconfirmedBalance - value)

def dropFromSequenceBucket (s : AccountState) (noteHash transactionHash : Nat) :
    AccountState :=
  match mapFind s.transactions transactionHash with
  | some record =>
    match record.sequence with
    | some sequence =>
      -- the source tests the record's sequence for truthiness, so a zero
      -- sequence is treated like an absent one
      if sequence ≠ 0 then
        match mapFind s.noteHashesBySequence sequence with
        | some noteHashes =>
          { s with noteHashesBySequence :=
              mapSet s.noteHashesBySequence sequence (setRemove noteHashes noteHash) }
        | none => s
      else s
    | none => s
  | none => s

def deleteDecryptedNote (s : AccountState) (noteHash transactionHash : Nat) :
    AccountState × List WriteEvent :=
  let p := deleteBalanceAdjust s noteHash
  let s2 := dropFromSequenceBucket p.1 noteHash transactionHash
  ({ s2 with
      nonChainNoteHashes := setRemove s2.nonChainNoteHashes noteHash,
      decryptedNotes := mapErase s2.decryptedNotes noteHash,
      dbDecryptedNotes := mapErase s2.dbDecryptedNotes noteHash },
   p.2 ++ [WriteEvent.deleteDecryptedNote noteHash])

/-- The first loop of `Account.deleteTransaction`: for every output note of
the transaction that the account owns, deletes the note and, when known, its
nullifier mapping. -/
def deleteTransactionNotes (s : AccountState) (hash : Nat) :
    List Nat → AccountState × List WriteEvent
  | [] => (s, [])
  | merkleHash :: rest =>
    match mapFind s.decryptedNotes merkleHash with
    | none => deleteTransactionNotes s hash rest
    | some decryptedNote =>
      let p1 := deleteDecryptedNote s merkleHash hash
      let p2 :=
        match decryptedNote.nullifierHash with
        | some nullifier => deleteNullifier p1.1 nullifier
        | none => (p1.1, ([] : List WriteEvent))
      let p3 := deleteTransactionNotes p2.1 hash rest
      (p3.1, p1.2 ++ p2.2 ++ p3.2)

/-- `Account.deleteTransaction`: forgets the transaction, deleting its owned
output notes and their nullifier mappings, clearing the spent flag of every
note one of its spends resolves to, and removing the record. -/
def deleteTransaction (s : AccountState) (hash : Nat) (transaction : Transaction) :
    Except String (AccountState × List WriteEvent) :=
  let p := deleteTransactionNotes s hash transaction.notes
  match processTransactionSpends p.1 true transaction.spends with
  | Except.error e => Except.error e
  | Except.ok (s2, w2) =>
    Except.ok
      ({ s2 with
          transactions := mapErase s2.transactions hash,
          dbTransactions := mapErase s2.dbTransactions hash },
        p.2 ++ w2 ++ [WriteEvent.deleteTransaction hash])

/-- One sequence bucket scan of `Account.getBalance`: subtracts the value of
every unspent note among `noteHashes` from the running confirmed balance.
Asserts that every hash resolves to a decrypted note. -/
def subtractUnspentNotes (s : AccountState) (confirmed : Int) :
    List Nat → Except String Int
  | [] => Except.ok confirmed
  | hash :: rest =>
    match mapFind s.decryptedNotes hash with
    | none => Except.error balanceNoteMissingMsg
    | some note =>
      if note.spent then subtractUnspentNotes s confirmed rest
      else subtractUnspentNotes s (confirmed - noteValue note.serializedNote) rest

/-- The sequences visited by `getBalance`'s loop, from
`unconfirmedSequenceStart` inclusive to `headSequence` exclusive. -/
def seqRange (unconfirmedSequenceStart headSequence : Nat) : List Nat :=
  (List.range (headSequence - unconfirmedSequenceStart)).map
    (fun i => unconfirmedSequenceStart + i)

/-- The per-sequence bucket scan of `Account.getBalance`. -/
def sequenceBucketPass (s : AccountState) (confirmed : Int) :
    List Nat → Except String Int
  | [] => Except.ok confirmed
  | i :: rest =>
    match mapFind s.noteHashesBySequence i with
    | none => sequenceBucketPass s confirmed rest
    | some noteHashes =>
      match subtractUnspentNotes s confirmed noteHashes with
      | Except.error e => Except.error e
      | Except.ok confirmed1 => sequenceBucketPass s confirmed1 rest

/-- `Account.getBalance`: the unconfirmed balance, and the confirmed balance
obtained from it by subtracting every unspent note found in a sequence bucket
within `[unconfirmedSequenceStart, headSequence)` and every unspent note in
the non-chain set. -/
def getBalance (s : AccountState) (unconfirmedSequenceStart headSequence : Nat) :
    Except String (Int × Int) :=
  let unconfirmed := s.dbUnconfirmedBalance
  match sequenceBucketPass s unconfirmed
      (seqRange unconfirmedSequenceStart headSequence) with
  | Except.error e => Except.error e
  | Except.ok confirmed1 =>
    match subtractUnspentNotes s confirmed1 s.nonChainNoteHashes with
    | Except.error e => Except.error e
    | Except.ok confirmed2 => Except.ok (unconfirmed, confirmed2)

/-- Modelled from the spec: `AccountsDB.loadNullifierToNoteHash` and
`AccountsDB.loadTransactions` rebuild an in-memory index by inserting every
stored entry into the supplied map. -/
def loadMapInto {V : Type} (memory : List (Nat × V)) :
    List (Nat × V) → List (Nat × V)
  | [] => memory
  | (k, v) :: rest => loadMapInto (mapSet memory k v) rest

/-- The loop of `Account.loadDecryptedNotesAndBalance`: every stored note
belonging to this account is inserted into the in-memory index, its unspent
value accumulated, and its sequence-index membership recomputed. -/
def loadDecryptedNotesAndBalance (s : AccountState) (unconfirmedBalance : Int) :
    List (Nat × DecryptedNoteValue) → Except String (AccountState × Int)
  | [] => Except.ok (s, unconfirmedBalance)
  | (hash, decryptedNote) :: rest =>
    if decryptedNote.accountId = s.id then
      let s1 := { s with decryptedNotes := mapSet s.decryptedNotes hash decryptedNote }
      let balance1 :=
        if decryptedNote.spent then unconfirmedBalance
        else unconfirmedBalance + noteValue decryptedNote.serializedNote
      match saveDecryptedNoteSequence s1 decryptedNote.transactionHash hash with
      | Except.error e => Except.error e
      | Except.ok s2 => loadDecryptedNotesAndBalance s2 balance1 rest
    else loadDecryptedNotesAndBalance s unconfirmedBalance rest

/-- `Account.load`: rebuilds the nullifier and transaction indices from the
store, then rebuilds the decrypted-note index and recomputes and persists the
unconfirmed balance. -/
def load (s : AccountState) : Except String (AccountState × List WriteEvent) :=
  let s1 := { s with
    nullifierToNoteHash := loadMapInto s.nullifierToNoteHash s.dbNullifierToNoteHash }
  let s2 := { s1 with transactions := loadMapInto s1.transactions s1.dbTransactions }
  match loadDecryptedNotesAndBalance s2 0 s2.dbDecryptedNotes with
  | Except.error e => Except.error e
  | Except.ok (s3, unconfirmedBalance) => Except.ok (saveUnconfirmedBalance s3 unconfirmedBalance)

/-- `Account.save`: modelled from the spec, the `replace` calls of the
`AccountsDB` adapter overwrite the stored indices with the in-memory ones. -/
def save (s : AccountState) : AccountState × List WriteEvent :=
  ({ s with
      dbDecryptedNotes := s.decryptedNotes,
      dbNullifierToNoteHash := s.nullifierToNoteHash,
      dbTransactions := s.transactions },
   [WriteEvent.replaceDecryptedNotes, WriteEvent.replaceNullifierToNoteHash,
    WriteEvent.replaceTransactions])

/-- `Account.reset`: clears the in-memory note, nullifier and transaction
indices and persists a zero balance.  The sequence indices are left as they
are, as in the source. -/
def reset (s : AccountState) : AccountState × List WriteEvent :=
  saveUnconfirmedBalance
    { s with decryptedNotes := [], nullifierToNoteHash := [], transactions := [] } 0

/-- A freshly constructed `Account` over an existing store: empty in-memory
indices, the store untouched. -/
def freshAccount (id : Nat) (s : AccountState) : AccountState :=
  { id := id
    decryptedNotes := []
    nullifierToNoteHash := []
    transactions := []
    noteHashesBySequence := []
    nonChainNoteHashes := []
    dbDecryptedNotes := s.dbDecryptedNotes
    dbNullifierToNoteHash := s.dbNullifierToNoteHash
    dbTransactions := s.dbTransactions
    dbUnconfirmedBalance := s.dbUnconfirmedBalance }

/-! ## Characterisation lemmas for the elementary operations -/

theorem saveDecryptedNoteSequence_ok_fields {s s' : AccountState}
    {transactionHash noteHash : Nat}
    (h : saveDecryptedNoteSequence s transactionHash noteHash = Except.ok s') :
    s'.id = s.id ∧ s'.decryptedNotes = s.decryptedNotes ∧
    s'.nullifierToNoteHash = s.nullifierToNoteHash ∧
    s'.transactions = s.transactions ∧
    s'.dbDecryptedNotes = s.dbDecryptedNotes ∧
    s'.dbNullifierToNoteHash = s.dbNullifierToNoteHash ∧
    s'.dbTransactions = s.dbTransactions ∧
    s'.dbUnconfirmedBalance = s.dbUnconfirmedBalance := by
  unfold saveDecryptedNoteSequence at h
  split at h
  · exact absurd h (by simp)
  · split at h
    · split at h
      · exact absurd h (by simp)
      · simp only [Except.ok.injEq] at h
        subst h
        exact ⟨rfl, rfl, rfl, rfl, rfl, rfl, rfl, rfl⟩
    · simp only [Except.ok.injEq] at h
      subst h
      exact ⟨rfl, rfl, rfl, rfl, rfl, rfl, rfl, rfl⟩

theorem saveDecryptedNoteSequence_error {s : AccountState}
    {transactionHash noteHash : Nat} {e : String}
    (h : saveDecryptedNoteSequence s transactionHash noteHash = Except.error e) :
    e = transactionUndefinedMsg ∨ e = sequenceRequiredMsg := by
  unfold saveDecryptedNoteSequence at h
  split at h
  · simp only [Except.error.injEq] at h
    exact Or.inl h.symm
  · split at h
    · split at h
      · simp only [Except.error.injEq] at h
        exact Or.inr h.symm
      · exact absurd h (by simp)
    · exact absurd h (by simp)

/-- The balance written by `updateDecryptedNote`, as a function of the stored
entry and the new state. -/
def updatedBalance (oldBalance : Int) (existing : Option DecryptedNoteValue)
    (note : DecryptedNoteValue) : Int :=
  match existing with
  | none =>
    if note.spent then oldBalance - noteValue note.serializedNote
    else oldBalance + noteValue note.serializedNote
  | some e =>
    if e.spent = note.spent then oldBalance
    else if note.spent then oldBalance - noteValue note.serializedNote
    else oldBalance + noteValue note.serializedNote


theorem balanceAdjust_fst (s : AccountState) (noteHash : Nat)
    (note : DecryptedNoteValue) :
    (balanceAdjust s noteHash note).1 =
      { s with dbUnconfirmedBalance :=
          updatedBalance s.dbUnconfirmedBalance (mapFind s.decryptedNotes noteHash) note } := by
  unfold balanceAdjust updatedBalance saveUnconfirmedBalance
  cases hfind : mapFind s.decryptedNotes noteHash with
  | none => cases hsp : note.spent <;> simp
  | some e => cases hes : e.spent <;> cases hsp : note.spent <;> simp [hes, hsp]

theorem balanceAdjust_snd (s : AccountState) (noteHash : Nat)
    (note : DecryptedNoteValue) :
    (balanceAdjust s noteHash note).2 =
      [WriteEvent.saveUnconfirmedBalance
        (updatedBalance s.dbUnconfirmedBalance (mapFind s.decryptedNotes noteHash) note)] ∨
    (balanceAdjust s noteHash note).2 = [] := by
  unfold balanceAdjust updatedBalance saveUnconfirmedBalance
  cases hfind : mapFind s.decryptedNotes noteHash with
  | none => cases hsp : note.spent <;> simp
  | some e => cases hes : e.spent <;> cases hsp : note.spent <;> simp [hes, hsp]

theorem balanceAdjust_snd_of_same {s : AccountState} {noteHash : Nat}
    {note : DecryptedNoteValue} {e : DecryptedNoteValue}
    (hfind : mapFind s.decryptedNotes noteHash = some e)
    (heq : e.spent = note.spent) :
    (balanceAdjust s noteHash note).2 = [] := by
  unfold balanceAdjust
  simp [hfind, heq]

theorem updateDecryptedNote_ok {s s' : AccountState} {noteHash : Nat}
    {note : DecryptedNoteValue} {w : List WriteEvent}
    (h : updateDecryptedNote s noteHash note = Except.ok (s', w)) :
    s'.id = s.id ∧
    s'.nullifierToNoteHash = s.nullifierToNoteHash ∧
    s'.transactions = s.transactions ∧
    s'.dbNullifierToNoteHash = s.dbNullifierToNoteHash ∧
    s'.dbTransactions = s.dbTransactions ∧
    s'.dbUnconfirmedBalance =
      updatedBalance s.dbUnconfirmedBalance (mapFind s.decryptedNotes noteHash) note ∧
    (∀ x, mapFind s'.decryptedNotes x =
      if x = noteHash then some note else mapFind s.decryptedNotes x) ∧
    (∀ x, mapFind s'.dbDecryptedNotes x =
      if x = noteHash then some note else mapFind s.dbDecryptedNotes x) ∧
    (w = [WriteEvent.saveUnconfirmedBalance s'.dbUnconfirmedBalance,
          WriteEvent.saveDecryptedNote noteHash] ∨
     w = [WriteEvent.saveDecryptedNote noteHash]) ∧
    (∀ e, mapFind s.decryptedNotes noteHash = some e → e.spent = note.spent →
      w = [WriteEvent.saveDecryptedNote noteHash]) := by
  unfold updateDecryptedNote at h
  dsimp only at h
  cases hseq : saveDecryptedNoteSequence (balanceAdjust s noteHash note).1
      note.transactionHash noteHash with
  | error e => rw [hseq] at h; exact absurd h (by simp)
  | ok s2 =>
    simp only [hseq, Except.ok.injEq, Prod.mk.injEq] at h
    obtain ⟨hs', hw⟩ := h
    obtain ⟨hid, hdn, hnl, htx, hdbn, hdbnl, hdbtx, hbal⟩ :=
      saveDecryptedNoteSequence_ok_fields hseq
    rw [balanceAdjust_fst] at hid hdn hnl htx hdbn hdbnl hdbtx hbal
    subst hs'
    refine ⟨hid, hnl, htx, hdbnl, hdbtx, hbal, ?_, ?_, ?_, ?_⟩
    · intro x
      show mapFind (mapSet s2.decryptedNotes noteHash note) x = _
      rw [mapFind_mapSet, hdn]
    · intro x
      show mapFind (mapSet s2.dbDecryptedNotes noteHash note) x = _
      rw [mapFind_mapSet, hdbn]
    · rcases balanceAdjust_snd s noteHash note with hev | hev
      · left
        rw [← hw, hev]
        show _ = WriteEvent.saveUnconfirmedBalance s2.dbUnconfirmedBalance :: _
        rw [hbal]
        rfl
      · right
        rw [← hw, hev]
        rfl
    · intro e hfind heq
      rw [← hw, balanceAdjust_snd_of_same hfind heq]
      rfl

theorem updateDecryptedNote_error {s : AccountState} {noteHash : Nat}
    {note : DecryptedNoteValue} {e : String}
    (h : updateDecryptedNote s noteHash note = Except.error e) :
    e = transactionUndefinedMsg ∨ e = sequenceRequiredMsg := by
  unfold updateDecryptedNote at h
  dsimp only at h
  cases hseq : saveDecryptedNoteSequence (balanceAdjust s noteHash note).1
      note.transactionHash noteHash with
  | error e' =>
    simp only [hseq, Except.error.injEq] at h
    subst h
    exact saveDecryptedNoteSequence_error hseq
  | ok s2 => rw [hseq] at h; exact absurd h (by simp)

/-! ## Loop lemmas -/

theorem processTransactionSpends_ok {isRem : Bool} {l : List Nat}
    {s s' : AccountState} {w : List WriteEvent}
    (h : processTransactionSpends s isRem l = Except.ok (s', w)) :
    s'.id = s.id ∧ s'.transactions = s.transactions ∧
    s'.dbTransactions = s.dbTransactions ∧
    s'.nullifierToNoteHash = s.nullifierToNoteHash ∧
    s'.dbNullifierToNoteHash = s.dbNullifierToNoteHash ∧
    (∀ ev ∈ w, (∃ b, ev = WriteEvent.saveUnconfirmedBalance b) ∨
      (∃ nh, ev = WriteEvent.saveDecryptedNote nh)) := by
  induction l generalizing s w with
  | nil =>
    unfold processTransactionSpends at h
    simp only [Except.ok.injEq, Prod.mk.injEq] at h
    obtain ⟨h1, h2⟩ := h
    subst h1
    subst h2
    exact ⟨rfl, rfl, rfl, rfl, rfl, by intro ev hev; exact absurd hev (by simp)⟩
  | cons n rest ih =>
    unfold processTransactionSpends at h
    cases hmap : mapFind s.nullifierToNoteHash n with
    | none =>
      simp only [hmap] at h
      exact ih h
    | some noteHash =>
      simp only [hmap] at h
      cases hnote : mapFind s.decryptedNotes noteHash with
      | none => rw [hnote] at h; exact absurd h (by simp)
      | some decryptedNote =>
        simp only [hnote] at h
        cases hupd : updateDecryptedNote s noteHash
            { decryptedNote with spent := !isRem } with
        | error e => rw [hupd] at h; exact absurd h (by simp)
        | ok p =>
          obtain ⟨s1, w1⟩ := p
          simp only [hupd] at h
          cases hrest : processTransactionSpends s1 isRem rest with
          | error e => rw [hrest] at h; exact absurd h (by simp)
          | ok q =>
            obtain ⟨s2, w2⟩ := q
            simp only [hrest, Except.ok.injEq, Prod.mk.injEq] at h
            obtain ⟨h1, h2⟩ := h
            subst h1
            subst h2
            obtain ⟨u1, u2, u3, u4, u5, _, _, _, uev, _⟩ := updateDecryptedNote_ok hupd
            obtain ⟨r1, r2, r3, r4, r5, rev⟩ := ih hrest
            refine ⟨r1.trans u1, r2.trans u3, r3.trans u5, r4.trans u2, r5.trans u4, ?_⟩
            intro ev hev
            rcases List.mem_append.mp hev with hev1 | hev2
            · rcases uev with hw | hw <;> rw [hw] at hev1
              · rcases List.mem_cons.mp hev1 with h1 | h1
                · exact Or.inl ⟨_, h1⟩
                · rcases List.mem_cons.mp h1 with h2 | h2
                  · exact Or.inr ⟨_, h2⟩
                  · exact absurd h2 (by simp)
              · rcases List.mem_cons.mp hev1 with h1 | h1
                · exact Or.inr ⟨_, h1⟩
                · exact absurd h1 (by simp)
            · exact rev ev hev2

theorem bulkUpdateDecryptedNotes_ok {aid : Nat} {transactionHash : Nat}
    {l : List DecryptedNoteParams} {s s' : AccountState} {w : List WriteEvent}
    (h : bulkUpdateDecryptedNotes aid s transactionHash l = Except.ok (s', w)) :
    s'.id = s.id ∧ s'.transactions = s.transactions ∧
    s'.dbTransactions = s.dbTransactions ∧
    (∀ ev ∈ w, (∃ n, ev = WriteEvent.saveNullifierNoteHash n) ∨
      (∃ b, ev = WriteEvent.saveUnconfirmedBalance b) ∨
      (∃ nh, ev = WriteEvent.saveDecryptedNote nh)) := by
  induction l generalizing s w with
  | nil =>
    unfold bulkUpdateDecryptedNotes at h
    simp only [Except.ok.injEq, Prod.mk.injEq] at h
    obtain ⟨h1, h2⟩ := h
    subst h1
    subst h2
    exact ⟨rfl, rfl, rfl, by intro ev hev; exact absurd hev (by simp)⟩
  | cons dn rest ih =>
    unfold bulkUpdateDecryptedNotes at h
    by_cases hfs : dn.forSpender
    · rw [if_pos hfs] at h
      exact ih h
    · rw [if_neg hfs] at h
      dsimp only at h
      cases hnf : dn.nullifier with
      | none =>
        simp only [hnf] at h
        cases hupd : updateDecryptedNote s dn.merkleHash
            { accountId := aid, nullifierHash := dn.nullifier,
              noteIndex := dn.noteIndex, serializedNote := dn.serializedNote,
              spent := false, transactionHash := transactionHash } with
        | error e => rw [hnf] at hupd; rw [hupd] at h; exact absurd h (by simp)
        | ok p =>
          obtain ⟨s2, w2⟩ := p
          rw [hnf] at hupd
          simp only [hupd] at h
          cases hrest : bulkUpdateDecryptedNotes aid s2 transactionHash rest with
          | error e => rw [hrest] at h; exact absurd h (by simp)
          | ok q =>
            obtain ⟨s3, w3⟩ := q
            simp only [hrest, Except.ok.injEq, Prod.mk.injEq] at h
            obtain ⟨h1, h2⟩ := h
            subst h1
            subst h2
            obtain ⟨u1, u2, u3, _, u5, _, _, _, uev, _⟩ := updateDecryptedNote_ok hupd
            obtain ⟨r1, r2, r3, rev⟩ := ih hrest
            refine ⟨r1.trans u1, r2.trans u3, r3.trans u5, ?_⟩
            intro ev hev
            rcases List.mem_append.mp hev with hev1 | hev2
            · rcases List.mem_append.mp hev1 with hev0 | hev1
              · exact absurd hev0 (by simp)
              · rcases uev with hw | hw <;> rw [hw] at hev1
                · rcases List.mem_cons.mp hev1 with h1 | h1
                  · exact Or.inr (Or.inl ⟨_, h1⟩)
                  · rcases List.mem_cons.mp h1 with h2 | h2
                    · exact Or.inr (Or.inr ⟨_, h2⟩)
                    · exact absurd h2 (by simp)
                · rcases List.mem_cons.mp hev1 with h1 | h1
                  · exact Or.inr (Or.inr ⟨_, h1⟩)
                  · exact absurd h1 (by simp)
            · exact rev ev hev2
      | some nf =>
        simp only [hnf] at h
        simp only [updateNullifierNoteHash] at h
        cases hupd : updateDecryptedNote
            { s with
                nullifierToNoteHash := mapSet s.nullifierToNoteHash nf dn.merkleHash,
                dbNullifierToNoteHash := mapSet s.dbNullifierToNoteHash nf dn.merkleHash }
            dn.merkleHash
            { accountId := aid, nullifierHash := some nf,
              noteIndex := dn.noteIndex, serializedNote := dn.serializedNote,
              spent := false, transactionHash := transactionHash } with
        | error e => rw [hupd] at h; exact absurd h (by simp)
        | ok p =>
          obtain ⟨s2, w2⟩ := p
          simp only [hupd] at h
          cases hrest : bulkUpdateDecryptedNotes aid s2 transactionHash rest with
          | error e => rw [hrest] at h; exact absurd h (by simp)
          | ok q =>
            obtain ⟨s3, w3⟩ := q
            simp only [hrest, Except.ok.injEq, Prod.mk.injEq] at h
            obtain ⟨h1, h2⟩ := h
            subst h1
            subst h2
            obtain ⟨u1, u2, u3, _, u5, _, _, _, uev, _⟩ := updateDecryptedNote_ok hupd
            obtain ⟨r1, r2, r3, rev⟩ := ih hrest
            refine ⟨r1.trans u1, r2.trans u3, r3.trans u5, ?_⟩
            intro ev hev
            rcases List.mem_append.mp hev with hev1 | hev2
            · rcases List.mem_append.mp hev1 with hev0 | hev1
              · rcases List.mem_cons.mp hev0 with h0 | h0
                · exact Or.inl ⟨_, h0⟩
                · exact absurd h0 (by simp)
              · rcases uev with hw | hw <;> rw [hw] at hev1
                · rcases List.mem_cons.mp hev1 with h1 | h1
                  · exact Or.inr (Or.inl ⟨_, h1⟩)
                  · rcases List.mem_cons.mp h1 with h2 | h2
                    · exact Or.inr (Or.inr ⟨_, h2⟩)
                    · exact absurd h2 (by simp)
                · rcases List.mem_cons.mp hev1 with h1 | h1
                  · exact Or.inr (Or.inr ⟨_, h1⟩)
                  · exact absurd h1 (by simp)
            · exact rev ev hev2


/-! ## Transaction record upsert -/

theorem upsertTransactionRecord_no_write {s : AccountState} {record : TransactionRecord}
    {transaction : Transaction} {params : SyncTransactionParams}
    (hrec : mapFind s.transactions transaction.unsignedHash = some record)
    (heq : record.transaction = transaction) (hbh : record.blockHash = params.blockHash) :
    upsertTransactionRecord s transaction params = (s, []) := by
  unfold upsertTransactionRecord
  simp [hrec, heq, hbh]

theorem upsertTransactionRecord_write {s : AccountState} {record : TransactionRecord}
    {transaction : Transaction} {params : SyncTransactionParams}
    (hrec : mapFind s.transactions transaction.unsignedHash = some record)
    (hne : ¬(record.transaction = transaction ∧ record.blockHash = params.blockHash)) :
    upsertTransactionRecord s transaction params =
      updateTransaction s transaction.unsignedHash
        ⟨transaction, params.blockHash, params.sequence, record.submittedSequence⟩ := by
  unfold upsertTransactionRecord mergedSubmittedSequence
  simp [hrec, hne]

/-- C6: for every `syncTransaction` call on a hash with an existing stored
record, a `saveTransaction` write happens exactly when the new transaction
payload differs from the stored payload or the new block hash differs from the
stored block hash, and a call that changes neither leaves the stored record
untouched in memory. -/
theorem syncTransaction_record_write_iff
    (s s' : AccountState) (transaction : Transaction)
    (decryptedNotes : List DecryptedNoteParams) (params : SyncTransactionParams)
    (record : TransactionRecord) (w : List WriteEvent)
    (hrec : mapFind s.transactions transaction.unsignedHash = some record)
    (h : syncTransaction s transaction decryptedNotes params = Except.ok (s', w)) :
    ((WriteEvent.saveTransaction transaction.unsignedHash ∈ w) ↔
      (record.transaction ≠ transaction ∨ record.blockHash ≠ params.blockHash)) ∧
    (record.transaction = transaction → record.blockHash = params.blockHash →
      mapFind s'.transactions transaction.unsignedHash = some record) := by
  unfold syncTransaction at h
  dsimp only at h
  by_cases hcond : record.transaction = transaction ∧ record.blockHash = params.blockHash
  · rw [upsertTransactionRecord_no_write hrec hcond.1 hcond.2] at h
    cases hbulk : bulkUpdateDecryptedNotes s.id s transaction.unsignedHash decryptedNotes with
    | error e => rw [hbulk] at h; exact absurd h (by simp)
    | ok p =>
      obtain ⟨s2, w2⟩ := p
      simp only [hbulk] at h
      cases hsp : processTransactionSpends s2 (isRemovingFor s transaction params)
          transaction.spends with
      | error e => rw [hsp] at h; exact absurd h (by simp)
      | ok q =>
        obtain ⟨s3, w3⟩ := q
        simp only [hsp, Except.ok.injEq, Prod.mk.injEq] at h
        obtain ⟨h1, h2⟩ := h
        subst h1
        subst h2
        obtain ⟨_, b2, _, bev⟩ := bulkUpdateDecryptedNotes_ok hbulk
        obtain ⟨_, p2, _, _, _, pev⟩ := processTransactionSpends_ok hsp
        constructor
        · constructor
          · intro hmem
            exfalso
            rcases List.mem_append.mp hmem with hm | hm
            · rcases List.mem_append.mp hm with hm0 | hm1
              · exact absurd hm0 (by simp)
              · rcases bev _ hm1 with ⟨n, hn⟩ | ⟨b, hb⟩ | ⟨nh, hnh⟩ <;> simp_all
            · rcases pev _ hm with ⟨b, hb⟩ | ⟨nh, hnh⟩ <;> simp_all
          · intro hne
            exfalso
            rcases hne with hne | hne
            · exact hne hcond.1
            · exact hne hcond.2
        · intro _ _
          rw [p2, b2, hrec]
  · rw [upsertTransactionRecord_write hrec hcond] at h
    simp only [updateTransaction] at h
    cases hbulk : bulkUpdateDecryptedNotes s.id
        { s with
            transactions := mapSet s.transactions transaction.unsignedHash
              ⟨transaction, params.blockHash, params.sequence, record.submittedSequence⟩,
            dbTransactions := mapSet s.dbTransactions transaction.unsignedHash
              ⟨transaction, params.blockHash, params.sequence, record.submittedSequence⟩ }
        transaction.unsignedHash decryptedNotes with
    | error e => rw [hbulk] at h; exact absurd h (by simp)
    | ok p =>
      obtain ⟨s2, w2⟩ := p
      simp only [hbulk] at h
      cases hsp : processTransactionSpends s2 (isRemovingFor s transaction params)
          transaction.spends with
      | error e => rw [hsp] at h; exact absurd h (by simp)
      | ok q =>
        obtain ⟨s3, w3⟩ := q
        simp only [hsp, Except.ok.injEq, Prod.mk.injEq] at h
        obtain ⟨h1, h2⟩ := h
        subst h1
        subst h2
        constructor
        · constructor
          · intro _
            rcases Decidable.not_and_iff_or_not.mp hcond with hne | hne
            · exact Or.inl hne
            · exact Or.inr hne
          · intro _
            exact List.mem_append.mpr (Or.inl (List.mem_append.mpr (Or.inl (by simp))))
        · intro he hb
          exact absurd ⟨he, hb⟩ hcond


/-! ## Claim C2: balance maintenance in updateDecryptedNote -/

/-- C2: `updateDecryptedNote` on a note hash with an existing stored entry
changes the unconfirmed balance only when the new state's spent flag differs
from the stored one: a false-to-true transition subtracts exactly the note's
value, a true-to-false transition adds exactly the note's value, an update
changing only other fields leaves the balance unchanged, and a brand-new
unspent note adds exactly its value. -/
theorem updateDecryptedNote_balance_rule
    (s s' : AccountState) (noteHash : Nat) (note : DecryptedNoteValue)
    (w : List WriteEvent)
    (h : updateDecryptedNote s noteHash note = Except.ok (s', w)) :
    (∀ existing, mapFind s.decryptedNotes noteHash = some existing →
      (existing.spent = false → note.spent = true →
        s'.dbUnconfirmedBalance = s.dbUnconfirmedBalance - noteValue note.serializedNote) ∧
      (existing.spent = true → note.spent = false →
        s'.dbUnconfirmedBalance = s.dbUnconfirmedBalance + noteValue note.serializedNote) ∧
      (existing.spent = note.spent →
        s'.dbUnconfirmedBalance = s.dbUnconfirmedBalance)) ∧
    (mapFind s.decryptedNotes noteHash = none → note.spent = false →
      s'.dbUnconfirmedBalance = s.dbUnconfirmedBalance + noteValue note.serializedNote) := by
  obtain ⟨_, _, _, _, _, hbal, _, _, _, _⟩ := updateDecryptedNote_ok h
  constructor
  · intro existing hfind
    rw [hbal, hfind]
    refine ⟨?_, ?_, ?_⟩
    · intro h1 h2; simp [updatedBalance, h1, h2]
    · intro h1 h2; simp [updatedBalance, h1, h2]
    · intro h1; simp [updatedBalance, h1]
  · intro hnone hsp
    rw [hbal, hnone]
    simp [updatedBalance, hsp]

def c2State : AccountState :=
  ⟨0, [(10, ⟨0, none, none, 5, true, 1⟩)], [],
   [(1, ⟨⟨1, [], []⟩, none, none, none⟩)], [], [], [], [], [], 0⟩

def c2Note : DecryptedNoteValue := ⟨0, none, none, 5, false, 1⟩

def c2Result : AccountState :=
  ⟨0, [(10, c2Note)], [], [(1, ⟨⟨1, [], []⟩, none, none, none⟩)], [], [10],
   [(10, c2Note)], [], [], 5⟩

theorem updateDecryptedNote_balance_rule_witness :
    updateDecryptedNote c2State 10 c2Note =
      Except.ok (c2Result,
        [WriteEvent.saveUnconfirmedBalance 5, WriteEvent.saveDecryptedNote 10]) ∧
    mapFind c2State.decryptedNotes 10 = some ⟨0, none, none, 5, true, 1⟩ ∧
    c2Result.dbUnconfirmedBalance =
      c2State.dbUnconfirmedBalance + noteValue c2Note.serializedNote :=
  ⟨by rfl, by rfl,
    ((updateDecryptedNote_balance_rule c2State c2Result 10 c2Note
        [WriteEvent.saveUnconfirmedBalance 5, WriteEvent.saveDecryptedNote 10]
        (by rfl)).1
      ⟨0, none, none, 5, true, 1⟩ (by rfl)).2.1 (by rfl) (by rfl)⟩

/-! ## Claim C10: a brand-new note arriving already spent -/

/-- C10: `updateDecryptedNote` on a note hash with no existing entry and a new
state whose spent flag is true decreases the unconfirmed balance by the note's
value, although that value was never added. -/
theorem updateDecryptedNote_new_spent_subtracts
    (s s' : AccountState) (noteHash : Nat) (note : DecryptedNoteValue)
    (w : List WriteEvent)
    (h : updateDecryptedNote s noteHash note = Except.ok (s', w))
    (hfind : mapFind s.decryptedNotes noteHash = none)
    (hsp : note.spent = true) :
    s'.dbUnconfirmedBalance = s.dbUnconfirmedBalance - noteValue note.serializedNote := by
  obtain ⟨_, _, _, _, _, hbal, _, _, _, _⟩ := updateDecryptedNote_ok h
  rw [hbal, hfind]
  simp [updatedBalance, hsp]

def c10State : AccountState :=
  ⟨0, [], [], [(1, ⟨⟨1, [], []⟩, none, none, none⟩)], [], [], [], [], [], 0⟩

def c10Note : DecryptedNoteValue := ⟨0, none, none, 5, true, 1⟩

def c10Result : AccountState :=
  ⟨0, [(10, c10Note)], [], [(1, ⟨⟨1, [], []⟩, none, none, none⟩)], [], [10],
   [(10, c10Note)], [], [], -5⟩

theorem updateDecryptedNote_new_spent_subtracts_witness :
    updateDecryptedNote c10State 10 c10Note =
      Except.ok (c10Result,
        [WriteEvent.saveUnconfirmedBalance (-5), WriteEvent.saveDecryptedNote 10]) ∧
    mapFind c10State.decryptedNotes 10 = none ∧
    c10Result.dbUnconfirmedBalance =
      c10State.dbUnconfirmedBalance - noteValue c10Note.serializedNote :=
  ⟨by rfl, by rfl,
    updateDecryptedNote_new_spent_subtracts c10State c10Result 10 c10Note
      [WriteEvent.saveUnconfirmedBalance (-5), WriteEvent.saveDecryptedNote 10]
      (by rfl) (by rfl) (by rfl)⟩

/-! ## Claim C6 witness -/

def c6State : AccountState :=
  ⟨0, [], [], [(1, ⟨⟨1, [], []⟩, some 2, some 10, none⟩)], [], [], [], [], [], 0⟩

def c6Tx : Transaction := ⟨1, [], []⟩

def c6Params : SyncTransactionParams := ⟨some 2, some 10, none⟩

def c6Record : TransactionRecord := ⟨c6Tx, some 2, some 10, none⟩

theorem syncTransaction_record_write_iff_witness :
    ((WriteEvent.saveTransaction c6Tx.unsignedHash ∈ ([] : List WriteEvent)) ↔
      (c6Record.transaction ≠ c6Tx ∨ c6Record.blockHash ≠ c6Params.blockHash)) ∧
    (c6Record.transaction = c6Tx → c6Record.blockHash = c6Params.blockHash →
      mapFind c6State.transactions c6Tx.unsignedHash = some c6Record) :=
  syncTransaction_record_write_iff c6State c6State c6Tx [] c6Params c6Record []
    (by rfl) (by rfl)


/-! ## Claim C7: deleting the transaction that produced the only note -/

/-- The balance after `deleteDecryptedNote` reverses the stored note's
contribution. -/
def deletedBalance (oldBalance : Int) (existing : Option DecryptedNoteValue) : Int :=
  match existing with
  | none => oldBalance
  | some e =>
    if e.spent then oldBalance + noteValue e.serializedNote
    else oldBalance - noteValue e.serializedNote

theorem deleteBalanceAdjust_fst (s : AccountState) (noteHash : Nat) :
    (deleteBalanceAdjust s noteHash).1 =
      { s with dbUnconfirmedBalance :=
          deletedBalance s.dbUnconfirmedBalance (mapFind s.decryptedNotes noteHash) } := by
  unfold deleteBalanceAdjust deletedBalance saveUnconfirmedBalance
  cases hfind : mapFind s.decryptedNotes noteHash with
  | none => simp
  | some e => cases hes : e.spent <;> simp [hes]

theorem dropFromSequenceBucket_fields (s : AccountState) (noteHash transactionHash : Nat) :
    ∃ b, dropFromSequenceBucket s noteHash transactionHash =
      { s with noteHashesBySequence := b } := by
  unfold dropFromSequenceBucket
  split
  · split
    · split
      · split
        · exact ⟨_, rfl⟩
        · exact ⟨s.noteHashesBySequence, rfl⟩
      · exact ⟨s.noteHashesBySequence, rfl⟩
    · exact ⟨s.noteHashesBySequence, rfl⟩
  · exact ⟨s.noteHashesBySequence, rfl⟩

theorem deleteDecryptedNote_fields (s : AccountState) (noteHash transactionHash : Nat) :
    (deleteDecryptedNote s noteHash transactionHash).1.id = s.id ∧
    (deleteDecryptedNote s noteHash transactionHash).1.decryptedNotes =
      mapErase s.decryptedNotes noteHash ∧
    (deleteDecryptedNote s noteHash transactionHash).1.nullifierToNoteHash =
      s.nullifierToNoteHash ∧
    (deleteDecryptedNote s noteHash transactionHash).1.transactions = s.transactions ∧
    (deleteDecryptedNote s noteHash transactionHash).1.nonChainNoteHashes =
      setRemove s.nonChainNoteHashes noteHash ∧
    (deleteDecryptedNote s noteHash transactionHash).1.dbDecryptedNotes =
      mapErase s.dbDecryptedNotes noteHash ∧
    (deleteDecryptedNote s noteHash transactionHash).1.dbNullifierToNoteHash =
      s.dbNullifierToNoteHash ∧
    (deleteDecryptedNote s noteHash transactionHash).1.dbTransactions =
      s.dbTransactions ∧
    (deleteDecryptedNote s noteHash transactionHash).1.dbUnconfirmedBalance =
      deletedBalance s.dbUnconfirmedBalance (mapFind s.decryptedNotes noteHash) := by
  unfold deleteDecryptedNote
  dsimp only
  obtain ⟨b, hdrop⟩ :=
    dropFromSequenceBucket_fields (deleteBalanceAdjust s noteHash).1 noteHash transactionHash
  rw [hdrop, deleteBalanceAdjust_fst]
  exact ⟨rfl, rfl, rfl, rfl, rfl, rfl, rfl, rfl, rfl⟩

theorem processTransactionSpends_empty_map {s : AccountState}
    (hm : s.nullifierToNoteHash = []) (isRem : Bool) (l : List Nat) :
    processTransactionSpends s isRem l = Except.ok (s, []) := by
  induction l with
  | nil => rfl
  | cons n rest ih =>
    unfold processTransactionSpends
    have hn : mapFind s.nullifierToNoteHash n = none := by rw [hm]; rfl
    simp only [hn]
    exact ih

/-- C7: for an account holding exactly one note, an unspent receive-note of
value V produced by transaction T, `deleteTransaction(hash(T), T)` removes the
note from the decrypted-note index, its nullifier mapping from the Nullifier
Index and the transaction record, and decreases the unconfirmed balance by
exactly V. -/
theorem deleteTransaction_forgets_sole_note
    (s : AccountState) (t : Transaction) (nh nf : Nat) (e : DecryptedNoteValue)
    (hnotes : s.decryptedNotes = [(nh, e)])
    (hmap : s.nullifierToNoteHash = [(nf, nh)])
    (hnf : e.nullifierHash = some nf)
    (hspent : e.spent = false)
    (htn : t.notes = [nh]) :
    ∃ s' w, deleteTransaction s t.unsignedHash t = Except.ok (s', w) ∧
      mapFind s'.decryptedNotes nh = none ∧
      mapFind s'.nullifierToNoteHash nf = none ∧
      mapFind s'.transactions t.unsignedHash = none ∧
      s'.dbUnconfirmedBalance = s.dbUnconfirmedBalance - noteValue e.serializedNote := by
  have hfind : mapFind s.decryptedNotes nh = some e := by
    rw [hnotes]; simp [mapFind]
  obtain ⟨d1, d2, d3, d4, d5, d6, d7, d8, d9⟩ :=
    deleteDecryptedNote_fields s nh t.unsignedHash
  have hnotesEq : deleteTransactionNotes s t.unsignedHash [nh] =
      ((deleteNullifier (deleteDecryptedNote s nh t.unsignedHash).1 nf).1,
        (deleteDecryptedNote s nh t.unsignedHash).2 ++
          [WriteEvent.deleteNullifier nf] ++ []) := by
    simp only [deleteTransactionNotes, hfind, hnf]
    rfl
  have hmapAfter :
      (deleteNullifier (deleteDecryptedNote s nh t.unsignedHash).1 nf).1.nullifierToNoteHash
        = mapErase s.nullifierToNoteHash nf := by
    show mapErase (deleteDecryptedNote s nh t.unsignedHash).1.nullifierToNoteHash nf = _
    rw [d3]
  have hempty :
      (deleteNullifier (deleteDecryptedNote s nh t.unsignedHash).1 nf).1.nullifierToNoteHash
        = [] := by
    rw [hmapAfter, hmap]
    simp [mapErase]
  unfold deleteTransaction
  dsimp only
  rw [htn, hnotesEq]
  dsimp only
  rw [processTransactionSpends_empty_map hempty true t.spends]
  refine ⟨_, _, rfl, ?_, ?_, ?_, ?_⟩
  · show mapFind
      (deleteNullifier (deleteDecryptedNote s nh t.unsignedHash).1 nf).1.decryptedNotes nh
        = none
    show mapFind (deleteDecryptedNote s nh t.unsignedHash).1.decryptedNotes nh = none
    rw [d2, mapFind_mapErase]
    simp
  · show mapFind
      (deleteNullifier (deleteDecryptedNote s nh t.unsignedHash).1 nf).1.nullifierToNoteHash nf = none
    rw [hempty]
    rfl
  · show mapFind
      (mapErase (deleteNullifier (deleteDecryptedNote s nh t.unsignedHash).1 nf).1.transactions t.unsignedHash) t.unsignedHash = none
    rw [mapFind_mapErase]
    simp
  · show (deleteNullifier (deleteDecryptedNote s nh t.unsignedHash).1 nf).1.dbUnconfirmedBalance
      = s.dbUnconfirmedBalance - noteValue e.serializedNote
    show (deleteDecryptedNote s nh t.unsignedHash).1.dbUnconfirmedBalance
      = s.dbUnconfirmedBalance - noteValue e.serializedNote
    rw [d9, hfind]
    simp [deletedBalance, hspent]

def c7Note : DecryptedNoteValue := ⟨0, some 5, some 0, 7, false, 1⟩

def c7Tx : Transaction := ⟨1, [], [10]⟩

def c7State : AccountState :=
  ⟨0, [(10, c7Note)], [(5, 10)], [(1, ⟨c7Tx, some 2, some 10, none⟩)],
   [(10, [10])], [], [(10, c7Note)], [(5, 10)],
   [(1, ⟨c7Tx, some 2, some 10, none⟩)], 7⟩

theorem deleteTransaction_forgets_sole_note_witness :
    c7State.decryptedNotes = [(10, c7Note)] ∧
    (∃ s' w, deleteTransaction c7State c7Tx.unsignedHash c7Tx = Except.ok (s', w) ∧
      mapFind s'.decryptedNotes 10 = none ∧
      mapFind s'.nullifierToNoteHash 5 = none ∧
      mapFind s'.transactions c7Tx.unsignedHash = none ∧
      s'.dbUnconfirmedBalance = c7State.dbUnconfirmedBalance - noteValue c7Note.serializedNote) :=
  ⟨by rfl,
    deleteTransaction_forgets_sole_note c7State c7Tx 10 5 c7Note
      (by rfl) (by rfl) (by rfl) (by rfl) (by rfl)⟩


/-! ## Claim C3: the confirmed balance computation -/

/-- The total value of the unspent notes among `hashes` (hashes that resolve
to no note contribute nothing). -/
def sumUnspent (s : AccountState) : List Nat → Int
  | [] => 0
  | hash :: rest =>
    (match mapFind s.decryptedNotes hash with
      | none => 0
      | some note => if note.spent then 0 else noteValue note.serializedNote)
      + sumUnspent s rest

/-- The total unspent value recorded in the sequence buckets of the given
sequences. -/
def bucketsSum (s : AccountState) : List Nat → Int
  | [] => 0
  | i :: rest =>
    (match mapFind s.noteHashesBySequence i with
      | none => 0
      | some hashes => sumUnspent s hashes)
      + bucketsSum s rest

theorem subtractUnspentNotes_ok {s : AccountState} {l : List Nat} {conf c : Int}
    (h : subtractUnspentNotes s conf l = Except.ok c) :
    c = conf - sumUnspent s l := by
  induction l generalizing conf with
  | nil =>
    unfold subtractUnspentNotes at h
    simp only [Except.ok.injEq] at h
    rw [← h]
    simp [sumUnspent]
  | cons hash rest ih =>
    unfold subtractUnspentNotes at h
    cases hfind : mapFind s.decryptedNotes hash with
    | none => rw [hfind] at h; exact absurd h (by simp)
    | some note =>
      simp only [hfind] at h
      by_cases hsp : note.spent = true
      · rw [if_pos hsp] at h
        have hr := ih h
        rw [hr]
        simp only [sumUnspent, hfind, hsp, if_pos]
        omega
      · rw [if_neg hsp] at h
        have hr := ih h
        rw [hr]
        have hspf : note.spent = false := Bool.eq_false_iff.mpr hsp
        simp only [sumUnspent, hfind, hspf]
        simp only [Bool.false_eq_true, if_false]
        omega

theorem sequenceBucketPass_ok {s : AccountState} {l : List Nat} {conf c : Int}
    (h : sequenceBucketPass s conf l = Except.ok c) :
    c = conf - bucketsSum s l := by
  induction l generalizing conf with
  | nil =>
    unfold sequenceBucketPass at h
    simp only [Except.ok.injEq] at h
    rw [← h]
    simp [bucketsSum]
  | cons i rest ih =>
    unfold sequenceBucketPass at h
    cases hfind : mapFind s.noteHashesBySequence i with
    | none =>
      simp only [hfind] at h
      have hr := ih h
      rw [hr]
      simp only [bucketsSum, hfind]
      omega
    | some hashes =>
      simp only [hfind] at h
      cases hsub : subtractUnspentNotes s conf hashes with
      | error e => rw [hsub] at h; exact absurd h (by simp)
      | ok conf1 =>
        simp only [hsub] at h
        have hr := ih h
        have hs := subtractUnspentNotes_ok hsub
        rw [hr, hs]
        simp only [bucketsSum, hfind]
        omega

/-- Whether a record places its transaction at a sequence in `[a, b)`. -/
def seqInRange : Option TransactionRecord → Nat → Nat → Bool
  | some r, a, b =>
    (match r.sequence with
      | some q => decide (a ≤ q) && decide (q < b)
      | none => false)
  | none, _, _ => false

/-- The recent-unspent subtraction exactly as claim C3 words it: the value of
every currently-unspent note whose owning transaction's sequence lies in
`[a, b)`.  This definition follows the claim text, for comparison with
`getBalance`. -/
def recentUnspentSum (s : AccountState) (a b : Nat) :
    List (Nat × DecryptedNoteValue) → Int
  | [] => 0
  | (_, e) :: rest =>
    (if e.spent = false ∧
        seqInRange (mapFind s.transactions e.transactionHash) a b = true
      then noteValue e.serializedNote else 0) + recentUnspentSum s a b rest

/-- The confirmed balance as claim C3 words it: unconfirmed, minus unspent
notes whose owning transaction's sequence is in range, minus unspent notes in
the non-chain set. -/
def claimConfirmedBalance (s : AccountState) (a b : Nat) : Int :=
  s.dbUnconfirmedBalance - recentUnspentSum s a b s.decryptedNotes
    - sumUnspent s s.nonChainNoteHashes

/-! Shared concrete scenario: an empty account receives one Mined transaction
(hash 1, block hash 2, sequence 10) with one receive-note of value 5 (hash 10,
nullifier 5), which is later re-synced with Removed status. -/

def scnS0 : AccountState := ⟨0, [], [], [], [], [], [], [], [], 0⟩

def scnTx1 : Transaction := ⟨1, [], [10]⟩

def scnDn1 : DecryptedNoteParams := ⟨some 0, some 5, 10, false, 5⟩

def scnMined : SyncTransactionParams := ⟨some 2, some 10, none⟩

def scnRemoved : SyncTransactionParams := ⟨none, none, none⟩

def scnNote : DecryptedNoteValue := ⟨0, some 5, some 0, 5, false, 1⟩

def scnRecM : TransactionRecord := ⟨scnTx1, some 2, some 10, none⟩

def scnRecR : TransactionRecord := ⟨scnTx1, none, none, none⟩

def scnS1 : AccountState :=
  ⟨0, [(10, scnNote)], [(5, 10)], [(1, scnRecM)], [(10, [10])], [],
   [(10, scnNote)], [(5, 10)], [(1, scnRecM)], 5⟩

def scnW1 : List WriteEvent :=
  [WriteEvent.saveTransaction 1, WriteEvent.saveNullifierNoteHash 5,
   WriteEvent.saveUnconfirmedBalance 5, WriteEvent.saveDecryptedNote 10]

def scnS2 : AccountState :=
  ⟨0, [(10, scnNote)], [(5, 10)], [(1, scnRecR)], [(10, [10])], [10],
   [(10, scnNote)], [(5, 10)], [(1, scnRecR)], 5⟩

def scnW2 : List WriteEvent :=
  [WriteEvent.saveTransaction 1, WriteEvent.saveNullifierNoteHash 5,
   WriteEvent.saveDecryptedNote 10]

/-- C3, the claim as stated is false: after syncing the Mined receive
transaction and re-syncing it with Removed status, the receive note sits both
in sequence bucket 10 and in the non-chain set, so `getBalance(5, 12)`
subtracts its value twice and returns a confirmed balance of -5, while the
claim's formula (driven by the owning transaction's sequence, which is now
null) yields 0. -/
theorem getBalance_claim_counterexample :
    syncTransaction scnS0 scnTx1 [scnDn1] scnMined = Except.ok (scnS1, scnW1) ∧
    syncTransaction scnS1 scnTx1 [scnDn1] scnRemoved = Except.ok (scnS2, scnW2) ∧
    getBalance scnS2 5 12 = Except.ok (5, -5) ∧
    claimConfirmedBalance scnS2 5 12 = 0 :=
  ⟨rfl, rfl, rfl, rfl⟩

/-- C3 amended: `getBalance` returns `unconfirmed = stored unconfirmed
balance` and `confirmed = unconfirmed` minus the value of every currently
unspent note recorded in a Sequence-Index bucket whose sequence lies in
`[confirmationStartSequence, headSequence)` minus the value of every currently
unspent note in the non-chain set (bucket membership, not the owning
transaction's current sequence, drives the subtraction); and the concrete
scenario: after syncing one Mined receive-note of value 5 at sequence 10 into
an empty account, the unconfirmed balance is 5, `getBalance 5 12` gives
confirmed 0 and `getBalance 11 12` gives confirmed 5. -/
theorem getBalance_bucket_formula :
    (∀ (s : AccountState) (a b : Nat) (u c : Int),
      getBalance s a b = Except.ok (u, c) →
      u = s.dbUnconfirmedBalance ∧
      c = s.dbUnconfirmedBalance - bucketsSum s (seqRange a b)
          - sumUnspent s s.nonChainNoteHashes) ∧
    (syncTransaction scnS0 scnTx1 [scnDn1] scnMined = Except.ok (scnS1, scnW1) ∧
     scnS1.dbUnconfirmedBalance = 5 ∧
     getBalance scnS1 5 12 = Except.ok (5, 0) ∧
     getBalance scnS1 11 12 = Except.ok (5, 5)) := by
  constructor
  · intro s a b u c h
    unfold getBalance at h
    dsimp only at h
    cases hpass : sequenceBucketPass s s.dbUnconfirmedBalance (seqRange a b) with
    | error e => rw [hpass] at h; exact absurd h (by simp)
    | ok conf1 =>
      simp only [hpass] at h
      cases hsub : subtractUnspentNotes s conf1 s.nonChainNoteHashes with
      | error e => rw [hsub] at h; exact absurd h (by simp)
      | ok conf2 =>
        simp only [hsub, Except.ok.injEq, Prod.mk.injEq] at h
        obtain ⟨h1, h2⟩ := h
        subst h1
        subst h2
        refine ⟨rfl, ?_⟩
        rw [subtractUnspentNotes_ok hsub, sequenceBucketPass_ok hpass]
  · exact ⟨rfl, rfl, rfl, rfl⟩

theorem getBalance_bucket_formula_witness :
    getBalance scnS1 5 12 = Except.ok (5, 0) ∧
    (5 : Int) = scnS1.dbUnconfirmedBalance ∧
    (0 : Int) = scnS1.dbUnconfirmedBalance - bucketsSum scnS1 (seqRange 5 12)
        - sumUnspent scnS1 scnS1.nonChainNoteHashes :=
  ⟨by rfl,
    (getBalance_bucket_formula.1 scnS1 5 12 5 0 (by rfl)).1,
    (getBalance_bucket_formula.1 scnS1 5 12 5 0 (by rfl)).2⟩


def c4Tx2 : Transaction := ⟨2, [5], []⟩

def c4Mined11 : SyncTransactionParams := ⟨some 3, some 11, none⟩

def c4NoteSpent : DecryptedNoteValue := ⟨0, some 5, some 0, 5, true, 1⟩

def c4Rec2M : TransactionRecord := ⟨c4Tx2, some 3, some 11, none⟩

def c4Rec2R : TransactionRecord := ⟨c4Tx2, none, none, none⟩

def c4S2 : AccountState :=
  ⟨0, [(10, c4NoteSpent)], [(5, 10)], [(2, c4Rec2M), (1, scnRecM)],
   [(10, [10])], [], [(10, c4NoteSpent)], [(5, 10)],
   [(2, c4Rec2M), (1, scnRecM)], 0⟩

def c4W2 : List WriteEvent :=
  [WriteEvent.saveTransaction 2, WriteEvent.saveUnconfirmedBalance 0,
   WriteEvent.saveDecryptedNote 10]

def c4S3 : AccountState :=
  ⟨0, [(10, scnNote)], [(5, 10)], [(2, c4Rec2R), (1, scnRecM)],
   [(10, [10])], [], [(10, scnNote)], [(5, 10)],
   [(2, c4Rec2R), (1, scnRecM)], 5⟩

def c4W3 : List WriteEvent :=
  [WriteEvent.saveTransaction 2, WriteEvent.saveUnconfirmedBalance 5,
   WriteEvent.saveDecryptedNote 10]

/-! ## Claim C4: spend processing sets the spent flag from the removal status -/

theorem processTransactionSpends_preserves_flag {isRem : Bool} {l : List Nat}
    {s s' : AccountState} {w : List WriteEvent} {h0 : Nat}
    (h : processTransactionSpends s isRem l = Except.ok (s', w))
    (hflag : ∃ e, mapFind s.decryptedNotes h0 = some e ∧ e.spent = !isRem) :
    ∃ e, mapFind s'.decryptedNotes h0 = some e ∧ e.spent = !isRem := by
  induction l generalizing s w with
  | nil =>
    unfold processTransactionSpends at h
    simp only [Except.ok.injEq, Prod.mk.injEq] at h
    obtain ⟨h1, _⟩ := h
    subst h1
    exact hflag
  | cons n rest ih =>
    unfold processTransactionSpends at h
    cases hmap : mapFind s.nullifierToNoteHash n with
    | none =>
      simp only [hmap] at h
      exact ih h hflag
    | some noteHash =>
      simp only [hmap] at h
      cases hnote : mapFind s.decryptedNotes noteHash with
      | none => rw [hnote] at h; exact absurd h (by simp)
      | some decryptedNote =>
        simp only [hnote] at h
        cases hupd : updateDecryptedNote s noteHash
            { decryptedNote with spent := !isRem } with
        | error e => rw [hupd] at h; exact absurd h (by simp)
        | ok p =>
          obtain ⟨s1, w1⟩ := p
          simp only [hupd] at h
          cases hrest : processTransactionSpends s1 isRem rest with
          | error e => rw [hrest] at h; exact absurd h (by simp)
          | ok q =>
            obtain ⟨s2, w2⟩ := q
            simp only [hrest, Except.ok.injEq, Prod.mk.injEq] at h
            obtain ⟨h1, _⟩ := h
            subst h1
            obtain ⟨_, _, _, _, _, _, hnotes, _, _, _⟩ := updateDecryptedNote_ok hupd
            refine ih hrest ?_
            by_cases hh : h0 = noteHash
            · exact ⟨_, (hnotes h0).trans (if_pos hh), rfl⟩
            · obtain ⟨e, he, hes⟩ := hflag
              exact ⟨e, (hnotes h0).trans (if_neg hh) |>.trans he, hes⟩

theorem processTransactionSpends_post {isRem : Bool} {l : List Nat}
    {s s' : AccountState} {w : List WriteEvent}
    (h : processTransactionSpends s isRem l = Except.ok (s', w)) :
    ∀ n ∈ l, ∀ nh, mapFind s.nullifierToNoteHash n = some nh →
      ∃ e, mapFind s'.decryptedNotes nh = some e ∧ e.spent = !isRem := by
  induction l generalizing s w with
  | nil => intro n hn; exact absurd hn (by simp)
  | cons n0 rest ih =>
    intro n hn nh hmapn
    unfold processTransactionSpends at h
    cases hmap : mapFind s.nullifierToNoteHash n0 with
    | none =>
      simp only [hmap] at h
      rcases List.mem_cons.mp hn with hn0 | hnr
      · subst hn0
        rw [hmapn] at hmap
        exact absurd hmap (by simp)
      · exact ih h n hnr nh hmapn
    | some noteHash =>
      simp only [hmap] at h
      cases hnote : mapFind s.decryptedNotes noteHash with
      | none => rw [hnote] at h; exact absurd h (by simp)
      | some decryptedNote =>
        simp only [hnote] at h
        cases hupd : updateDecryptedNote s noteHash
            { decryptedNote with spent := !isRem } with
        | error e => rw [hupd] at h; exact absurd h (by simp)
        | ok p =>
          obtain ⟨s1, w1⟩ := p
          simp only [hupd] at h
          cases hrest : processTransactionSpends s1 isRem rest with
          | error e => rw [hrest] at h; exact absurd h (by simp)
          | ok q =>
            obtain ⟨s2, w2⟩ := q
            simp only [hrest, Except.ok.injEq, Prod.mk.injEq] at h
            obtain ⟨h1, _⟩ := h
            subst h1
            obtain ⟨_, humap, _, _, _, _, hnotes, _, _, _⟩ :=
              updateDecryptedNote_ok hupd
            rcases List.mem_cons.mp hn with hn0 | hnr
            · subst hn0
              rw [hmapn] at hmap
              have hnh : nh = noteHash := by
                simpa using hmap
              subst hnh
              refine processTransactionSpends_preserves_flag hrest ?_
              exact ⟨_, (hnotes nh).trans (if_pos rfl), rfl⟩
            · refine ih hrest n hnr nh ?_
              rw [humap, hmapn]

/-- C4: after a successful `syncTransaction`, every spend nullifier of the
transaction that resolves to an owned note via the Nullifier Index leaves that
note's spent flag equal to true when the call is not a removal (merged
submitted sequence or block hash non-null) and false when it is; and the
concrete reorg scenario: re-syncing the spending transaction with Removed
status restores the spent note's flag to false and its value to the
unconfirmed balance. -/
theorem syncTransaction_spends_set_flag :
    (∀ (s s' : AccountState) (transaction : Transaction)
      (decryptedNotes : List DecryptedNoteParams) (params : SyncTransactionParams)
      (w : List WriteEvent),
      syncTransaction s transaction decryptedNotes params = Except.ok (s', w) →
      ∀ n ∈ transaction.spends, ∀ nh,
        mapFind s'.nullifierToNoteHash n = some nh →
        ∃ e, mapFind s'.decryptedNotes nh = some e ∧
          e.spent = !(isRemovingFor s transaction params)) ∧
    (syncTransaction scnS1 c4Tx2 [] c4Mined11 = Except.ok (c4S2, c4W2) ∧
     c4S2.dbUnconfirmedBalance = 0 ∧
     mapFind c4S2.decryptedNotes 10 = some c4NoteSpent ∧
     c4NoteSpent.spent = true ∧
     syncTransaction c4S2 c4Tx2 [] scnRemoved = Except.ok (c4S3, c4W3) ∧
     mapFind c4S3.decryptedNotes 10 = some scnNote ∧
     scnNote.spent = false ∧
     c4S3.dbUnconfirmedBalance = 5) := by
  constructor
  · intro s s' transaction decryptedNotes params w h n hn nh hmapn
    unfold syncTransaction at h
    dsimp only at h
    cases hbulk : bulkUpdateDecryptedNotes s.id
        (upsertTransactionRecord s transaction params).1
        transaction.unsignedHash decryptedNotes with
    | error e => rw [hbulk] at h; exact absurd h (by simp)
    | ok p =>
      obtain ⟨s2, w2⟩ := p
      simp only [hbulk] at h
      cases hsp : processTransactionSpends s2 (isRemovingFor s transaction params)
          transaction.spends with
      | error e => rw [hsp] at h; exact absurd h (by simp)
      | ok q =>
        obtain ⟨s3, w3⟩ := q
        simp only [hsp, Except.ok.injEq, Prod.mk.injEq] at h
        obtain ⟨h1, _⟩ := h
        subst h1
        obtain ⟨_, _, _, hm3, _, _⟩ := processTransactionSpends_ok hsp
        exact processTransactionSpends_post hsp n hn nh (by rw [← hm3, hmapn])
  · exact ⟨rfl, rfl, rfl, rfl, rfl, rfl, rfl, rfl⟩

theorem syncTransaction_spends_set_flag_witness :
    ∃ e, mapFind c4S2.decryptedNotes 10 = some e ∧
      e.spent = !(isRemovingFor scnS1 c4Tx2 c4Mined11) :=
  syncTransaction_spends_set_flag.1 scnS1 c4S2 c4Tx2 [] c4Mined11 c4W2
    (by rfl) 5 (by simp [c4Tx2]) 10 (by rfl)


/-! ## Claim C9: save followed by a fresh load -/

theorem mapFind_eq_none_iff {V : Type} (l : List (Nat × V)) (k : Nat) :
    mapFind l k = none ↔ k ∉ l.map Prod.fst := by
  induction l with
  | nil => simp [mapFind]
  | cons p rest ih =>
    obtain ⟨a, v⟩ := p
    by_cases hk : k = a
    · subst hk
      simp [mapFind]
    · simp only [mapFind, if_neg hk, List.map_cons, List.mem_cons, ih]
      constructor
      · intro h hc
        rcases hc with hc | hc
        · exact hk hc
        · exact h hc
      · intro h hc
        exact h (Or.inr hc)

theorem mapFind_loadMapInto {V : Type} (l : List (Nat × V)) (m : List (Nat × V))
    (hnod : (l.map Prod.fst).Nodup) (k : Nat) :
    mapFind (loadMapInto m l) k =
      match mapFind l k with
      | some v => some v
      | none => mapFind m k := by
  induction l generalizing m with
  | nil => simp [loadMapInto, mapFind]
  | cons p rest ih =>
    obtain ⟨a, v⟩ := p
    simp only [List.map_cons, List.nodup_cons] at hnod
    obtain ⟨hna, hnod2⟩ := hnod
    show mapFind (loadMapInto (mapSet m a v) rest) k = _
    rw [ih _ hnod2]
    by_cases hk : k = a
    · subst hk
      have hrnone : mapFind rest k = none := (mapFind_eq_none_iff rest k).mpr hna
      simp [hrnone, mapFind_mapSet, mapFind]
    · cases hfr : mapFind rest k with
      | none => simp [mapFind, if_neg hk, hfr, mapFind_mapSet, mapFind_mapErase]
      | some v' => simp [mapFind, if_neg hk, hfr]

theorem mapFind_loadMapInto_empty {V : Type} (l : List (Nat × V))
    (hnod : (l.map Prod.fst).Nodup) (k : Nat) :
    mapFind (loadMapInto ([] : List (Nat × V)) l) k = mapFind l k := by
  rw [mapFind_loadMapInto l [] hnod k]
  cases hfr : mapFind l k <;> simp [mapFind]

/-- The sum of the values of the unspent notes among the stored entries, in
store order; this is what `load` recomputes the unconfirmed balance to. -/
def unspentSum : List (Nat × DecryptedNoteValue) → Int
  | [] => 0
  | (_, e) :: rest =>
    (if e.spent then 0 else noteValue e.serializedNote) + unspentSum rest

theorem saveDecryptedNoteSequence_isOk {s : AccountState} {th : Nat} (nh : Nat)
    {r : TransactionRecord}
    (hr : mapFind s.transactions th = some r)
    (hseq : r.blockHash ≠ none → r.sequence ≠ none) :
    ∃ s', saveDecryptedNoteSequence s th nh = Except.ok s' := by
  unfold saveDecryptedNoteSequence
  simp only [hr]
  cases hbh : r.blockHash with
  | none => exact ⟨_, rfl⟩
  | some b =>
    cases hsq : r.sequence with
    | none => exact absurd hsq (hseq (by simp [hbh]))
    | some q => exact ⟨_, rfl⟩

theorem loadDecryptedNotesAndBalance_ok {l : List (Nat × DecryptedNoteValue)}
    {t : AccountState} (bal : Int)
    (hacc : ∀ p ∈ l, p.2.accountId = t.id)
    (hrec : ∀ p ∈ l, ∃ r, mapFind t.transactions p.2.transactionHash = some r ∧
      (r.blockHash ≠ none → r.sequence ≠ none)) :
    ∃ s3, loadDecryptedNotesAndBalance t bal l = Except.ok (s3, bal + unspentSum l) ∧
      (∀ k, mapFind s3.decryptedNotes k = mapFind (loadMapInto t.decryptedNotes l) k) ∧
      s3.nullifierToNoteHash = t.nullifierToNoteHash ∧
      s3.transactions = t.transactions ∧
      s3.id = t.id ∧
      s3.dbUnconfirmedBalance = t.dbUnconfirmedBalance ∧
      s3.dbDecryptedNotes = t.dbDecryptedNotes ∧
      s3.dbNullifierToNoteHash = t.dbNullifierToNoteHash ∧
      s3.dbTransactions = t.dbTransactions := by
  induction l generalizing t bal with
  | nil =>
    refine ⟨t, ?_, ?_, rfl, rfl, rfl, rfl, rfl, rfl, rfl⟩
    · show Except.ok (t, bal) = Except.ok (t, bal + unspentSum [])
      simp [unspentSum]
    · intro k
      rfl
  | cons p rest ih =>
    obtain ⟨hash, dn⟩ := p
    have haid : dn.accountId = t.id := hacc (hash, dn) (by simp)
    obtain ⟨r, hr, hrs⟩ := hrec (hash, dn) (by simp)
    have hr1 : mapFind
        ({ t with decryptedNotes := mapSet t.decryptedNotes hash dn } :
          AccountState).transactions dn.transactionHash = some r := hr
    obtain ⟨s2, hsds⟩ := saveDecryptedNoteSequence_isOk hash hr1 hrs
    obtain ⟨f1, f2, f3, f4, f5, f6, f7, f8⟩ := saveDecryptedNoteSequence_ok_fields hsds
    have hacc2 : ∀ p ∈ rest, p.2.accountId = s2.id := by
      intro p hp
      rw [f1]
      exact hacc p (by simp [hp])
    have hrec2 : ∀ p ∈ rest, ∃ r2, mapFind s2.transactions p.2.transactionHash = some r2 ∧
        (r2.blockHash ≠ none → r2.sequence ≠ none) := by
      intro p hp
      rw [f4]
      exact hrec p (by simp [hp])
    obtain ⟨s3, hrun, g2, g3, g4, g5, g6, g7, g8, g9⟩ :=
      ih (t := s2)
        (if dn.spent = true then bal else bal + noteValue dn.serializedNote)
        hacc2 hrec2
    have hbalEq :
        (if dn.spent = true then bal else bal + noteValue dn.serializedNote)
          + unspentSum rest = bal + unspentSum ((hash, dn) :: rest) := by
      by_cases hdn : dn.spent = true
      · simp only [hdn, if_pos, unspentSum]
        simp
      · have hdnf : dn.spent = false := Bool.eq_false_iff.mpr hdn
        simp only [hdnf, unspentSum]
        simp
        omega
    refine ⟨s3, ?_, ?_, g3.trans f3, g4.trans f4, g5.trans f1, g6.trans f8,
      g7.trans f5, g8.trans f6, g9.trans f7⟩
    · show loadDecryptedNotesAndBalance t bal ((hash, dn) :: rest) = _
      unfold loadDecryptedNotesAndBalance
      rw [if_pos haid]
      simp only [hsds]
      rw [hrun, hbalEq]
    · intro k
      rw [g2 k]
      show mapFind (loadMapInto s2.decryptedNotes rest) k = _
      rw [f2]
      rfl

def c9Note : DecryptedNoteValue := ⟨0, some 5, some 0, 5, false, 1⟩

def c9Rec : TransactionRecord := ⟨⟨1, [], []⟩, none, none, some 3⟩

def c9Bad : AccountState :=
  ⟨0, [(10, c9Note)], [(5, 10)], [(1, c9Rec)], [], [10], [], [], [], 99⟩

def c9BadLoaded : AccountState :=
  ⟨0, [(10, c9Note)], [(5, 10)], [(1, c9Rec)], [], [10],
   [(10, c9Note)], [(5, 10)], [(1, c9Rec)], 5⟩

def c9Good : AccountState :=
  ⟨0, [(10, c9Note)], [(5, 10)], [(1, c9Rec)], [], [10], [], [], [], 5⟩

/-- C9, the claim as stated is false: for a state whose persisted unconfirmed
balance (99) disagrees with its stored notes (one unspent note of value 5),
`save()` followed by a fresh `load()` reproduces the index contents but resets
the balance to 5, not to the saved 99 — `save` never writes the balance and
`load` recomputes it from the unspent notes. -/
theorem save_load_balance_counterexample :
    load (freshAccount 0 (save c9Bad).1) =
      Except.ok (c9BadLoaded, [WriteEvent.saveUnconfirmedBalance 5]) ∧
    c9BadLoaded.dbUnconfirmedBalance = 5 ∧
    c9Bad.dbUnconfirmedBalance = 99 :=
  ⟨rfl, rfl, rfl⟩

/-- C9 amended: for every account state whose indices have no duplicate keys,
whose stored notes all belong to the account and reference a stored
transaction record (with a sequence whenever there is a block hash), and whose
persisted unconfirmed balance is consistent with its notes (equal to the sum
of unspent note values), `save()` followed by `load()` on a freshly
constructed account over the same store reproduces identical decrypted-note,
nullifier and transaction lookups and an identical unconfirmed balance. -/
theorem save_load_round_trip
    (s : AccountState)
    (hnodN : (s.decryptedNotes.map Prod.fst).Nodup)
    (hnodM : (s.nullifierToNoteHash.map Prod.fst).Nodup)
    (hnodT : (s.transactions.map Prod.fst).Nodup)
    (hacc : ∀ p ∈ s.decryptedNotes, p.2.accountId = s.id)
    (hrec : ∀ p ∈ s.decryptedNotes,
      ∃ r, mapFind s.transactions p.2.transactionHash = some r ∧
        (r.blockHash ≠ none → r.sequence ≠ none))
    (hbal : s.dbUnconfirmedBalance = unspentSum s.decryptedNotes) :
    ∃ s' w, load (freshAccount s.id (save s).1) = Except.ok (s', w) ∧
      (∀ k, mapFind s'.decryptedNotes k = mapFind s.decryptedNotes k) ∧
      (∀ k, mapFind s'.nullifierToNoteHash k = mapFind s.nullifierToNoteHash k) ∧
      (∀ k, mapFind s'.transactions k = mapFind s.transactions k) ∧
      s'.dbUnconfirmedBalance = s.dbUnconfirmedBalance := by
  have hT :
      load (freshAccount s.id (save s).1) =
        (match loadDecryptedNotesAndBalance
            { id := s.id, decryptedNotes := [],
              nullifierToNoteHash := loadMapInto [] s.nullifierToNoteHash,
              transactions := loadMapInto [] s.transactions,
              noteHashesBySequence := [], nonChainNoteHashes := [],
              dbDecryptedNotes := s.decryptedNotes,
              dbNullifierToNoteHash := s.nullifierToNoteHash,
              dbTransactions := s.transactions,
              dbUnconfirmedBalance := s.dbUnconfirmedBalance }
            0 s.decryptedNotes with
          | Except.error e => Except.error e
          | Except.ok (s3, b) => Except.ok (saveUnconfirmedBalance s3 b)) := rfl
  have hacc2 : ∀ p ∈ s.decryptedNotes, p.2.accountId =
      ({ id := s.id, decryptedNotes := [],
          nullifierToNoteHash := loadMapInto [] s.nullifierToNoteHash,
          transactions := loadMapInto [] s.transactions,
          noteHashesBySequence := [], nonChainNoteHashes := [],
          dbDecryptedNotes := s.decryptedNotes,
          dbNullifierToNoteHash := s.nullifierToNoteHash,
          dbTransactions := s.transactions,
          dbUnconfirmedBalance := s.dbUnconfirmedBalance } : AccountState).id := hacc
  have hrec2 : ∀ p ∈ s.decryptedNotes,
      ∃ r, mapFind
          ({ id := s.id, decryptedNotes := [],
              nullifierToNoteHash := loadMapInto [] s.nullifierToNoteHash,
              transactions := loadMapInto [] s.transactions,
              noteHashesBySequence := [], nonChainNoteHashes := [],
              dbDecryptedNotes := s.decryptedNotes,
              dbNullifierToNoteHash := s.nullifierToNoteHash,
              dbTransactions := s.transactions,
              dbUnconfirmedBalance := s.dbUnconfirmedBalance } :
            AccountState).transactions p.2.transactionHash = some r ∧
        (r.blockHash ≠ none → r.sequence ≠ none) := by
    intro p hp
    obtain ⟨r, hr, hrs⟩ := hrec p hp
    refine ⟨r, ?_, hrs⟩
    show mapFind (loadMapInto [] s.transactions) p.2.transactionHash = some r
    rw [mapFind_loadMapInto_empty s.transactions hnodT]
    exact hr
  obtain ⟨s3, hrun, g2, g3, g4, g5, g6, g7, g8, g9⟩ :=
    loadDecryptedNotesAndBalance_ok 0 hacc2 hrec2
  refine ⟨{ s3 with dbUnconfirmedBalance := 0 + unspentSum s.decryptedNotes },
    [WriteEvent.saveUnconfirmedBalance (0 + unspentSum s.decryptedNotes)],
    ?_, ?_, ?_, ?_, ?_⟩
  · rw [hT]
    simp only [hrun]
    rfl
  · intro k
    show mapFind s3.decryptedNotes k = mapFind s.decryptedNotes k
    rw [g2 k]
    show mapFind (loadMapInto [] s.decryptedNotes) k = _
    rw [mapFind_loadMapInto_empty s.decryptedNotes hnodN]
  · intro k
    show mapFind s3.nullifierToNoteHash k = _
    rw [g3]
    show mapFind (loadMapInto [] s.nullifierToNoteHash) k = _
    rw [mapFind_loadMapInto_empty s.nullifierToNoteHash hnodM]
  · intro k
    show mapFind s3.transactions k = _
    rw [g4]
    show mapFind (loadMapInto [] s.transactions) k = _
    rw [mapFind_loadMapInto_empty s.transactions hnodT]
  · show (0 : Int) + unspentSum s.decryptedNotes = s.dbUnconfirmedBalance
    rw [hbal]
    omega

theorem save_load_round_trip_witness :
    ∃ s' w, load (freshAccount c9Good.id (save c9Good).1) = Except.ok (s', w) ∧
      (∀ k, mapFind s'.decryptedNotes k = mapFind c9Good.decryptedNotes k) ∧
      (∀ k, mapFind s'.nullifierToNoteHash k = mapFind c9Good.nullifierToNoteHash k) ∧
      (∀ k, mapFind s'.transactions k = mapFind c9Good.transactions k) ∧
      s'.dbUnconfirmedBalance = c9Good.dbUnconfirmedBalance :=
  save_load_round_trip c9Good (by decide) (by decide) (by decide)
    (by decide)
    (by
      intro p hp
      have hp2 : p = (10, c9Note) := by simpa [c9Good] using hp
      subst hp2
      exact ⟨c9Rec, by rfl, fun hc => absurd rfl hc⟩)
    (by rfl)


/-! ## Claim C8: the dangling-nullifier assertion -/

theorem mapFind_mem {V : Type} {l : List (Nat × V)} {k : Nat} {v : V}
    (h : mapFind l k = some v) : (k, v) ∈ l := by
  induction l with
  | nil => exact absurd h (by simp [mapFind])
  | cons p rest ih =>
    obtain ⟨a, b⟩ := p
    by_cases hk : k = a
    · subst hk
      rw [mapFind, if_pos rfl] at h
      simp only [Option.some.injEq] at h
      subst h
      exact List.mem_cons_self _ _
    · rw [mapFind, if_neg hk] at h
      exact List.mem_cons_of_mem _ (ih h)

theorem mem_mapErase_iff {V : Type} (m : List (Nat × V)) (k : Nat) (p : Nat × V) :
    p ∈ mapErase m k ↔ p ∈ m ∧ p.1 ≠ k := by
  induction m with
  | nil => simp [mapErase]
  | cons q rest ih =>
    obtain ⟨a, b⟩ := q
    by_cases hak : a = k
    · rw [mapErase, if_pos hak, ih]
      subst hak
      constructor
      · intro h
        exact ⟨List.mem_cons_of_mem _ h.1, h.2⟩
      · intro h
        rcases List.mem_cons.mp h.1 with hc | hc
        · exact absurd (by rw [hc]) h.2
        · exact ⟨hc, h.2⟩
    · rw [mapErase, if_neg hak]
      simp only [List.mem_cons, ih]
      constructor
      · intro h
        rcases h with hc | hc
        · subst hc
          exact ⟨Or.inl rfl, hak⟩
        · exact ⟨Or.inr hc.1, hc.2⟩
      · intro h
        rcases h.1 with hc | hc
        · exact Or.inl hc
        · exact Or.inr ⟨hc, h.2⟩

/-- The Nullifier-Index invariant of the spec: every entry's note hash exists
in the decrypted-note index. -/
def nullifierNotesInvariant (s : AccountState) : Prop :=
  ∀ p ∈ s.nullifierToNoteHash, (mapFind s.decryptedNotes p.2).isSome = true

/-- The strengthened invariant: every entry's note hash exists in the
decrypted-note index, and that note records the entry's nullifier as its
own. -/
def nullifierNotesStrongInvariant (s : AccountState) : Prop :=
  ∀ p ∈ s.nullifierToNoteHash,
    ∃ e, mapFind s.decryptedNotes p.2 = some e ∧ e.nullifierHash = some p.1

theorem strong_to_weak {s : AccountState}
    (h : nullifierNotesStrongInvariant s) : nullifierNotesInvariant s := by
  intro p hp
  obtain ⟨e, he, _⟩ := h p hp
  rw [he]
  rfl

theorem updateDecryptedNote_preserves_inv {s s' : AccountState} {nh : Nat}
    {note : DecryptedNoteValue} {w : List WriteEvent}
    (hinv : nullifierNotesInvariant s)
    (h : updateDecryptedNote s nh note = Except.ok (s', w)) :
    nullifierNotesInvariant s' := by
  obtain ⟨_, hmapf, _, _, _, _, hnotes, _, _, _⟩ := updateDecryptedNote_ok h
  intro p hp
  rw [hmapf] at hp
  rw [hnotes]
  by_cases hx : p.2 = nh
  · rw [if_pos hx]
    rfl
  · rw [if_neg hx]
    exact hinv p hp

theorem bulkUpdateDecryptedNotes_error {aid transactionHash : Nat}
    {l : List DecryptedNoteParams} {s : AccountState} {e : String}
    (h : bulkUpdateDecryptedNotes aid s transactionHash l = Except.error e) :
    e = transactionUndefinedMsg ∨ e = sequenceRequiredMsg := by
  induction l generalizing s with
  | nil => exact absurd h (by simp [bulkUpdateDecryptedNotes])
  | cons dn rest ih =>
    unfold bulkUpdateDecryptedNotes at h
    by_cases hfs : dn.forSpender
    · rw [if_pos hfs] at h
      exact ih h
    · rw [if_neg hfs] at h
      dsimp only at h
      cases hnf : dn.nullifier with
      | none =>
        simp only [hnf] at h
        cases hupd : updateDecryptedNote s dn.merkleHash
            { accountId := aid, nullifierHash := dn.nullifier,
              noteIndex := dn.noteIndex, serializedNote := dn.serializedNote,
              spent := false, transactionHash := transactionHash } with
        | error e2 =>
          rw [hnf] at hupd
          rw [hupd] at h
          simp only [Except.error.injEq] at h
          subst h
          exact updateDecryptedNote_error hupd
        | ok p =>
          obtain ⟨s2, w2⟩ := p
          rw [hnf] at hupd
          simp only [hupd] at h
          cases hrest : bulkUpdateDecryptedNotes aid s2 transactionHash rest with
          | error e2 =>
            rw [hrest] at h
            simp only [Except.error.injEq] at h
            subst h
            exact ih hrest
          | ok q => rw [hrest] at h; exact absurd h (by simp)
      | some nf =>
        simp only [hnf] at h
        simp only [updateNullifierNoteHash] at h
        cases hupd : updateDecryptedNote
            { s with
                nullifierToNoteHash := mapSet s.nullifierToNoteHash nf dn.merkleHash,
                dbNullifierToNoteHash := mapSet s.dbNullifierToNoteHash nf dn.merkleHash }
            dn.merkleHash
            { accountId := aid, nullifierHash := some nf,
              noteIndex := dn.noteIndex, serializedNote := dn.serializedNote,
              spent := false, transactionHash := transactionHash } with
        | error e2 =>
          rw [hupd] at h
          simp only [Except.error.injEq] at h
          subst h
          exact updateDecryptedNote_error hupd
        | ok p =>
          obtain ⟨s2, w2⟩ := p
          simp only [hupd] at h
          cases hrest : bulkUpdateDecryptedNotes aid s2 transactionHash rest with
          | error e2 =>
            rw [hrest] at h
            simp only [Except.error.injEq] at h
            subst h
            exact ih hrest
          | ok q => rw [hrest] at h; exact absurd h (by simp)

theorem bulkUpdateDecryptedNotes_preserves_inv {aid transactionHash : Nat}
    {l : List DecryptedNoteParams} {s s' : AccountState} {w : List WriteEvent}
    (hinv : nullifierNotesInvariant s)
    (h : bulkUpdateDecryptedNotes aid s transactionHash l = Except.ok (s', w)) :
    nullifierNotesInvariant s' := by
  induction l generalizing s w with
  | nil =>
    unfold bulkUpdateDecryptedNotes at h
    simp only [Except.ok.injEq, Prod.mk.injEq] at h
    obtain ⟨h1, _⟩ := h
    subst h1
    exact hinv
  | cons dn rest ih =>
    unfold bulkUpdateDecryptedNotes at h
    by_cases hfs : dn.forSpender
    · rw [if_pos hfs] at h
      exact ih hinv h
    · rw [if_neg hfs] at h
      dsimp only at h
      cases hnf : dn.nullifier with
      | none =>
        simp only [hnf] at h
        cases hupd : updateDecryptedNote s dn.merkleHash
            { accountId := aid, nullifierHash := dn.nullifier,
              noteIndex := dn.noteIndex, serializedNote := dn.serializedNote,
              spent := false, transactionHash := transactionHash } with
        | error e2 => rw [hnf] at hupd; rw [hupd] at h; exact absurd h (by simp)
        | ok p =>
          obtain ⟨s2, w2⟩ := p
          rw [hnf] at hupd
          simp only [hupd] at h
          cases hrest : bulkUpdateDecryptedNotes aid s2 transactionHash rest with
          | error e2 => rw [hrest] at h; exact absurd h (by simp)
          | ok q =>
            obtain ⟨s3, w3⟩ := q
            simp only [hrest, Except.ok.injEq, Prod.mk.injEq] at h
            obtain ⟨h1, _⟩ := h
            subst h1
            exact ih (updateDecryptedNote_preserves_inv hinv hupd) hrest
      | some nf =>
        simp only [hnf] at h
        simp only [updateNullifierNoteHash] at h
        cases hupd : updateDecryptedNote
            { s with
                nullifierToNoteHash := mapSet s.nullifierToNoteHash nf dn.merkleHash,
                dbNullifierToNoteHash := mapSet s.dbNullifierToNoteHash nf dn.merkleHash }
            dn.merkleHash
            { accountId := aid, nullifierHash := some nf,
              noteIndex := dn.noteIndex, serializedNote := dn.serializedNote,
              spent := false, transactionHash := transactionHash } with
        | error e2 => rw [hupd] at h; exact absurd h (by simp)
        | ok p =>
          obtain ⟨s2, w2⟩ := p
          simp only [hupd] at h
          cases hrest : bulkUpdateDecryptedNotes aid s2 transactionHash rest with
          | error e2 => rw [hrest] at h; exact absurd h (by simp)
          | ok q =>
            obtain ⟨s3, w3⟩ := q
            simp only [hrest, Except.ok.injEq, Prod.mk.injEq] at h
            obtain ⟨h1, _⟩ := h
            subst h1
            refine ih ?_ hrest
            obtain ⟨_, hmapf, _, _, _, _, hnotes, _, _, _⟩ :=
              updateDecryptedNote_ok hupd
            intro p hp
            rw [hmapf] at hp
            rw [hnotes]
            by_cases hx : p.2 = dn.merkleHash
            · rw [if_pos hx]
              rfl
            · rw [if_neg hx]
              show (mapFind s.decryptedNotes p.2).isSome = true
              rcases List.mem_cons.mp hp with hc | hc
              · exfalso
                apply hx
                rw [hc]
              · exact hinv p ((mem_mapErase_iff s.nullifierToNoteHash nf p).mp hc).1

theorem processTransactionSpends_error_msg {isRem : Bool} {l : List Nat}
    {s : AccountState} {e : String}
    (hinv : nullifierNotesInvariant s)
    (h : processTransactionSpends s isRem l = Except.error e) :
    e = transactionUndefinedMsg ∨ e = sequenceRequiredMsg := by
  induction l generalizing s with
  | nil => exact absurd h (by simp [processTransactionSpends])
  | cons n rest ih =>
    unfold processTransactionSpends at h
    cases hmap : mapFind s.nullifierToNoteHash n with
    | none =>
      simp only [hmap] at h
      exact ih hinv h
    | some noteHash =>
      simp only [hmap] at h
      cases hnote : mapFind s.decryptedNotes noteHash with
      | none =>
        exfalso
        have hiso := hinv _ (mapFind_mem hmap)
        rw [hnote] at hiso
        exact absurd hiso (by simp)
      | some dn =>
        simp only [hnote] at h
        cases hupd : updateDecryptedNote s noteHash { dn with spent := !isRem } with
        | error e2 =>
          rw [hupd] at h
          simp only [Except.error.injEq] at h
          subst h
          exact updateDecryptedNote_error hupd
        | ok p =>
          obtain ⟨s1, w1⟩ := p
          simp only [hupd] at h
          cases hrest : processTransactionSpends s1 isRem rest with
          | error e2 =>
            rw [hrest] at h
            simp only [Except.error.injEq] at h
            subst h
            exact ih (updateDecryptedNote_preserves_inv hinv hupd) hrest
          | ok q => rw [hrest] at h; exact absurd h (by simp)

theorem upsertTransactionRecord_fields (s : AccountState)
    (transaction : Transaction) (params : SyncTransactionParams) :
    (upsertTransactionRecord s transaction params).1.id = s.id ∧
    (upsertTransactionRecord s transaction params).1.decryptedNotes = s.decryptedNotes ∧
    (upsertTransactionRecord s transaction params).1.nullifierToNoteHash =
      s.nullifierToNoteHash ∧
    (upsertTransactionRecord s transaction params).1.noteHashesBySequence =
      s.noteHashesBySequence ∧
    (upsertTransactionRecord s transaction params).1.nonChainNoteHashes =
      s.nonChainNoteHashes ∧
    (upsertTransactionRecord s transaction params).1.dbDecryptedNotes =
      s.dbDecryptedNotes ∧
    (upsertTransactionRecord s transaction params).1.dbNullifierToNoteHash =
      s.dbNullifierToNoteHash ∧
    (upsertTransactionRecord s transaction params).1.dbUnconfirmedBalance =
      s.dbUnconfirmedBalance := by
  unfold upsertTransactionRecord updateTransaction
  dsimp only
  split
  · exact ⟨rfl, rfl, rfl, rfl, rfl, rfl, rfl, rfl⟩
  · split
    · exact ⟨rfl, rfl, rfl, rfl, rfl, rfl, rfl, rfl⟩
    · exact ⟨rfl, rfl, rfl, rfl, rfl, rfl, rfl, rfl⟩

theorem deleteTransactionNotes_preserves_strong (hash : Nat) (l : List Nat)
    {s : AccountState}
    (hstrong : nullifierNotesStrongInvariant s) :
    nullifierNotesStrongInvariant (deleteTransactionNotes s hash l).1 := by
  induction l generalizing s with
  | nil => exact hstrong
  | cons mh rest ih =>
    unfold deleteTransactionNotes
    cases hdn : mapFind s.decryptedNotes mh with
    | none =>
      simp only [hdn]
      exact ih hstrong
    | some dn =>
      simp only [hdn]
      obtain ⟨d1, d2, d3, d4, d5, d6, d7, d8, d9⟩ := deleteDecryptedNote_fields s mh hash
      cases hnf : dn.nullifierHash with
      | none =>
        refine ih ?_
        intro p hp
        rw [d3] at hp
        obtain ⟨e, he, hen⟩ := hstrong p hp
        have hne : p.2 ≠ mh := by
          intro hc
          rw [hc, hdn] at he
          simp only [Option.some.injEq] at he
          subst he
          rw [hnf] at hen
          exact absurd hen (by simp)
        rw [d2, mapFind_mapErase, if_neg hne]
        exact ⟨e, he, hen⟩
      | some nf =>
        refine ih ?_
        intro p hp
        have hp2 : p ∈ mapErase
            (deleteDecryptedNote s mh hash).1.nullifierToNoteHash nf := hp
        rw [d3] at hp2
        obtain ⟨hpm, hpne⟩ := (mem_mapErase_iff s.nullifierToNoteHash nf p).mp hp2
        obtain ⟨e, he, hen⟩ := hstrong p hpm
        have hne : p.2 ≠ mh := by
          intro hc
          rw [hc, hdn] at he
          simp only [Option.some.injEq] at he
          subst he
          rw [hnf] at hen
          simp only [Option.some.injEq] at hen
          exact hpne hen.symm
        show ∃ e2, mapFind (deleteDecryptedNote s mh hash).1.decryptedNotes p.2 =
          some e2 ∧ e2.nullifierHash = some p.1
        rw [d2, mapFind_mapErase, if_neg hne]
        exact ⟨e, he, hen⟩

def c8Note : DecryptedNoteValue := ⟨0, none, some 0, 5, false, 1⟩

def c8Tx : Transaction := ⟨1, [7], [10]⟩

def c8State : AccountState :=
  ⟨0, [(10, c8Note)], [(7, 10)], [(1, ⟨c8Tx, none, none, some 3⟩)], [], [10],
   [(10, c8Note)], [(7, 10)], [(1, ⟨c8Tx, none, none, some 3⟩)], 5⟩

/-- C8, the claim as stated is false: the Nullifier-Index invariant (every
entry's note hash exists in the decrypted-note index) holds in `c8State`, yet
`deleteTransaction` still aborts with the dangling-nullifier assertion: its
notes pass deletes note 10, whose stored state carries no `nullifierHash`, so
the stale mapping `7 -> 10` survives and the spends pass then resolves
nullifier 7 to the now-deleted note. -/
theorem deleteTransaction_invariant_counterexample :
    nullifierNotesInvariant c8State ∧
    deleteTransaction c8State 1 c8Tx = Except.error nullifierNoteMsg := by
  constructor
  · intro p hp
    have hp2 : p = (7, 10) := by simpa [c8State] using hp
    subst hp2
    rfl
  · rfl

/-- C8 amended: a spend whose nullifier has a Nullifier-Index entry whose
mapped note hash has no decrypted-note entry makes the spend pass abort with
the fatal assertion; for `syncTransaction`, under the invariant that every
Nullifier-Index entry's note hash exists in the decrypted-note index, this
error is unreachable; for `deleteTransaction`, unreachability needs the
strengthened invariant that every entry's note also records that nullifier as
its own (otherwise the notes pass can leave a stale entry behind and trip the
assertion itself). -/
theorem nullifier_assertion_behavior :
    (∀ (s : AccountState) (isRem : Bool) (n : Nat) (rest : List Nat) (nh : Nat),
      mapFind s.nullifierToNoteHash n = some nh →
      mapFind s.decryptedNotes nh = none →
      processTransactionSpends s isRem (n :: rest) = Except.error nullifierNoteMsg) ∧
    (∀ (s : AccountState) (transaction : Transaction)
      (decryptedNotes : List DecryptedNoteParams) (params : SyncTransactionParams),
      nullifierNotesInvariant s →
      syncTransaction s transaction decryptedNotes params ≠
        Except.error nullifierNoteMsg) ∧
    (∀ (s : AccountState) (hash : Nat) (transaction : Transaction),
      nullifierNotesStrongInvariant s →
      deleteTransaction s hash transaction ≠ Except.error nullifierNoteMsg) := by
  refine ⟨?_, ?_, ?_⟩
  · intro s isRem n rest nh hmap hnote
    unfold processTransactionSpends
    simp only [hmap, hnote]
  · intro s transaction decryptedNotes params hinv hcontra
    unfold syncTransaction at hcontra
    dsimp only at hcontra
    obtain ⟨_, u2, u3, _, _, _, _, _⟩ :=
      upsertTransactionRecord_fields s transaction params
    have hinv1 : nullifierNotesInvariant
        (upsertTransactionRecord s transaction params).1 := by
      intro p hp
      rw [u3] at hp
      rw [u2]
      exact hinv p hp
    cases hbulk : bulkUpdateDecryptedNotes s.id
        (upsertTransactionRecord s transaction params).1
        transaction.unsignedHash decryptedNotes with
    | error e =>
      rw [hbulk] at hcontra
      simp only [Except.error.injEq] at hcontra
      rcases bulkUpdateDecryptedNotes_error hbulk with he | he <;>
        rw [he] at hcontra <;> exact absurd hcontra.symm (by decide)
    | ok p =>
      obtain ⟨s2, w2⟩ := p
      simp only [hbulk] at hcontra
      have hinv2 := bulkUpdateDecryptedNotes_preserves_inv hinv1 hbulk
      cases hsp : processTransactionSpends s2 (isRemovingFor s transaction params)
          transaction.spends with
      | error e =>
        rw [hsp] at hcontra
        simp only [Except.error.injEq] at hcontra
        rcases processTransactionSpends_error_msg hinv2 hsp with he | he <;>
          rw [he] at hcontra <;> exact absurd hcontra.symm (by decide)
      | ok q =>
        obtain ⟨s3, w3⟩ := q
        rw [hsp] at hcontra
        exact absurd hcontra (by simp)
  · intro s hash transaction hstrong hcontra
    unfold deleteTransaction at hcontra
    dsimp only at hcontra
    have hstrong1 := deleteTransactionNotes_preserves_strong
      hash transaction.notes hstrong
    cases hsp : processTransactionSpends (deleteTransactionNotes s hash transaction.notes).1
        true transaction.spends with
    | error e =>
      rw [hsp] at hcontra
      simp only [Except.error.injEq] at hcontra
      rcases processTransactionSpends_error_msg (strong_to_weak hstrong1) hsp with he | he <;>
        rw [he] at hcontra <;> exact absurd hcontra.symm (by decide)
    | ok q =>
      obtain ⟨s2, w2⟩ := q
      rw [hsp] at hcontra
      exact absurd hcontra (by simp)

def c8FireState : AccountState :=
  ⟨0, [], [(7, 10)], [], [], [], [], [], [], 0⟩

theorem nullifier_assertion_behavior_witness :
    processTransactionSpends c8FireState false [7] = Except.error nullifierNoteMsg :=
  nullifier_assertion_behavior.1 c8FireState false 7 [] 10 (by rfl) (by rfl)


/-! ## Claim C5: sequence-index / non-chain coverage of the note index -/

/-- Membership of a note hash in the union of the Sequence-Index buckets and
the Non-chain Note Set. -/
def inUnion (s : AccountState) (h : Nat) : Prop :=
  (∃ q b, mapFind s.noteHashesBySequence q = some b ∧ h ∈ b) ∨
    h ∈ s.nonChainNoteHashes

/-- Every note hash held in the decrypted-note index appears in the union of
the Sequence-Index buckets and the Non-chain Note Set. -/
def coverageInvariant (s : AccountState) : Prop :=
  ∀ h, (mapFind s.decryptedNotes h).isSome = true → inUnion s h

/-- The states reachable from a freshly constructed account (over an arbitrary
store) by successful engine operations. -/
inductive Reachable : AccountState → Prop where
  | init (id : Nat) (dbN : List (Nat × DecryptedNoteValue)) (dbM : List (Nat × Nat))
      (dbT : List (Nat × TransactionRecord)) (dbB : Int) :
      Reachable ⟨id, [], [], [], [], [], dbN, dbM, dbT, dbB⟩
  | syncStep {s s' : AccountState} {t : Transaction}
      {dns : List DecryptedNoteParams} {params : SyncTransactionParams}
      {w : List WriteEvent} :
      Reachable s → syncTransaction s t dns params = Except.ok (s', w) →
      Reachable s'
  | updateStep {s s' : AccountState} {nh : Nat} {note : DecryptedNoteValue}
      {w : List WriteEvent} :
      Reachable s → updateDecryptedNote s nh note = Except.ok (s', w) →
      Reachable s'
  | deleteStep {s s' : AccountState} {hash : Nat} {t : Transaction}
      {w : List WriteEvent} :
      Reachable s → deleteTransaction s hash t = Except.ok (s', w) →
      Reachable s'
  | loadStep {s s' : AccountState} {w : List WriteEvent} :
      Reachable s → load s = Except.ok (s', w) → Reachable s'
  | resetStep {s s' : AccountState} {w : List WriteEvent} :
      Reachable s → reset s = (s', w) → Reachable s'

theorem inUnion_transfer {s s' : AccountState}
    (hb : s'.noteHashesBySequence = s.noteHashesBySequence)
    (hc : s'.nonChainNoteHashes = s.nonChainNoteHashes) {x : Nat}
    (h : inUnion s x) : inUnion s' x := by
  unfold inUnion at h ⊢
  rw [hb, hc]
  exact h

theorem coverage_transfer {s s' : AccountState}
    (hn : s'.decryptedNotes = s.decryptedNotes)
    (hb : s'.noteHashesBySequence = s.noteHashesBySequence)
    (hc : s'.nonChainNoteHashes = s.nonChainNoteHashes)
    (h : coverageInvariant s) : coverageInvariant s' := by
  intro x hx
  rw [hn] at hx
  exact inUnion_transfer hb hc (h x hx)

theorem saveDecryptedNoteSequence_union {s s' : AccountState}
    {transactionHash noteHash : Nat}
    (h : saveDecryptedNoteSequence s transactionHash noteHash = Except.ok s') :
    (∀ x, inUnion s x → inUnion s' x) ∧ inUnion s' noteHash := by
  unfold saveDecryptedNoteSequence at h
  cases hrec : mapFind s.transactions transactionHash with
  | none => rw [hrec] at h; exact absurd h (by simp)
  | some t =>
    simp only [hrec] at h
    cases hbh : t.blockHash with
    | none =>
      simp only [hbh, Except.ok.injEq] at h
      subst h
      constructor
      · intro x hx
        rcases hx with ⟨q, b, hq, hb⟩ | hx
        · exact Or.inl ⟨q, b, hq, hb⟩
        · exact Or.inr ((mem_setAdd _ _ _).mpr (Or.inr hx))
      · exact Or.inr ((mem_setAdd _ _ _).mpr (Or.inl rfl))
    | some bh =>
      simp only [hbh] at h
      cases hsq : t.sequence with
      | none => rw [hsq] at h; exact absurd h (by simp)
      | some q0 =>
        simp only [hsq, Except.ok.injEq] at h
        subst h
        constructor
        · intro x hx
          rcases hx with ⟨q, b, hq, hb⟩ | hx
          · by_cases hqq : q = q0
            · subst hqq
              refine Or.inl ⟨q,
                setAdd ((mapFind s.noteHashesBySequence q).getD []) noteHash, ?_, ?_⟩
              · show mapFind (mapSet s.noteHashesBySequence q _) q = _
                rw [mapFind_mapSet, if_pos rfl]
              · rw [hq]
                show x ∈ setAdd ((some b).getD []) noteHash
                exact (mem_setAdd _ _ _).mpr (Or.inr hb)
            · refine Or.inl ⟨q, b, ?_, hb⟩
              show mapFind (mapSet s.noteHashesBySequence q0 _) q = _
              rw [mapFind_mapSet, if_neg hqq]
              exact hq
          · by_cases hxn : x = noteHash
            · refine Or.inl ⟨q0,
                setAdd ((mapFind s.noteHashesBySequence q0).getD []) noteHash, ?_, ?_⟩
              · show mapFind (mapSet s.noteHashesBySequence q0 _) q0 = _
                rw [mapFind_mapSet, if_pos rfl]
              · rw [hxn]
                exact (mem_setAdd _ _ _).mpr (Or.inl rfl)
            · exact Or.inr ((mem_setRemove _ _ _).mpr ⟨hx, hxn⟩)
        · refine Or.inl ⟨q0,
            setAdd ((mapFind s.noteHashesBySequence q0).getD []) noteHash, ?_, ?_⟩
          · show mapFind (mapSet s.noteHashesBySequence q0 _) q0 = _
            rw [mapFind_mapSet, if_pos rfl]
          · exact (mem_setAdd _ _ _).mpr (Or.inl rfl)

theorem updateDecryptedNote_union {s s' : AccountState} {noteHash : Nat}
    {note : DecryptedNoteValue} {w : List WriteEvent}
    (h : updateDecryptedNote s noteHash note = Except.ok (s', w)) :
    (∀ x, inUnion s x → inUnion s' x) ∧ inUnion s' noteHash := by
  unfold updateDecryptedNote at h
  dsimp only at h
  cases hseq : saveDecryptedNoteSequence (balanceAdjust s noteHash note).1
      note.transactionHash noteHash with
  | error e => rw [hseq] at h; exact absurd h (by simp)
  | ok s2 =>
    simp only [hseq, Except.ok.injEq, Prod.mk.injEq] at h
    obtain ⟨hs', _⟩ := h
    obtain ⟨hpres, htgt⟩ := saveDecryptedNoteSequence_union hseq
    subst hs'
    constructor
    · intro x hx
      have hx1 : inUnion (balanceAdjust s noteHash note).1 x := by
        refine inUnion_transfer ?_ ?_ hx <;> rw [balanceAdjust_fst]
      exact hpres x hx1
    · exact htgt

theorem updateDecryptedNote_preserves_cov {s s' : AccountState} {noteHash : Nat}
    {note : DecryptedNoteValue} {w : List WriteEvent}
    (hcov : coverageInvariant s)
    (h : updateDecryptedNote s noteHash note = Except.ok (s', w)) :
    coverageInvariant s' := by
  obtain ⟨hpres, htgt⟩ := updateDecryptedNote_union h
  obtain ⟨_, _, _, _, _, _, hnotes, _, _, _⟩ := updateDecryptedNote_ok h
  intro x hx
  by_cases hxn : x = noteHash
  · subst hxn
    exact htgt
  · rw [hnotes x, if_neg hxn] at hx
    exact hpres x (hcov x hx)


theorem bulkUpdateDecryptedNotes_preserves_cov {aid transactionHash : Nat}
    {l : List DecryptedNoteParams} {s s' : AccountState} {w : List WriteEvent}
    (hcov : coverageInvariant s)
    (h : bulkUpdateDecryptedNotes aid s transactionHash l = Except.ok (s', w)) :
    coverageInvariant s' := by
  induction l generalizing s w with
  | nil =>
    unfold bulkUpdateDecryptedNotes at h
    simp only [Except.ok.injEq, Prod.mk.injEq] at h
    obtain ⟨h1, _⟩ := h
    subst h1
    exact hcov
  | cons dn rest ih =>
    unfold bulkUpdateDecryptedNotes at h
    by_cases hfs : dn.forSpender
    · rw [if_pos hfs] at h
      exact ih hcov h
    · rw [if_neg hfs] at h
      dsimp only at h
      cases hnf : dn.nullifier with
      | none =>
        simp only [hnf] at h
        cases hupd : updateDecryptedNote s dn.merkleHash
            { accountId := aid, nullifierHash := dn.nullifier,
              noteIndex := dn.noteIndex, serializedNote := dn.serializedNote,
              spent := false, transactionHash := transactionHash } with
        | error e2 => rw [hnf] at hupd; rw [hupd] at h; exact absurd h (by simp)
        | ok p =>
          obtain ⟨s2, w2⟩ := p
          rw [hnf] at hupd
          simp only [hupd] at h
          cases hrest : bulkUpdateDecryptedNotes aid s2 transactionHash rest with
          | error e2 => rw [hrest] at h; exact absurd h (by simp)
          | ok q =>
            obtain ⟨s3, w3⟩ := q
            simp only [hrest, Except.ok.injEq, Prod.mk.injEq] at h
            obtain ⟨h1, _⟩ := h
            subst h1
            exact ih (updateDecryptedNote_preserves_cov hcov hupd) hrest
      | some nf =>
        simp only [hnf] at h
        simp only [updateNullifierNoteHash] at h
        cases hupd : updateDecryptedNote
            { s with
                nullifierToNoteHash := mapSet s.nullifierToNoteHash nf dn.merkleHash,
                dbNullifierToNoteHash := mapSet s.dbNullifierToNoteHash nf dn.merkleHash }
            dn.merkleHash
            { accountId := aid, nullifierHash := some nf,
              noteIndex := dn.noteIndex, serializedNote := dn.serializedNote,
              spent := false, transactionHash := transactionHash } with
        | error e2 => rw [hupd] at h; exact absurd h (by simp)
        | ok p =>
          obtain ⟨s2, w2⟩ := p
          simp only [hupd] at h
          cases hrest : bulkUpdateDecryptedNotes aid s2 transactionHash rest with
          | error e2 => rw [hrest] at h; exact absurd h (by simp)
          | ok q =>
            obtain ⟨s3, w3⟩ := q
            simp only [hrest, Except.ok.injEq, Prod.mk.injEq] at h
            obtain ⟨h1, _⟩ := h
            subst h1
            refine ih ?_ hrest
            refine updateDecryptedNote_preserves_cov ?_ hupd
            exact coverage_transfer (s := s) rfl rfl rfl hcov

theorem processTransactionSpends_preserves_cov {isRem : Bool} {l : List Nat}
    {s s' : AccountState} {w : List WriteEvent}
    (hcov : coverageInvariant s)
    (h : processTransactionSpends s isRem l = Except.ok (s', w)) :
    coverageInvariant s' := by
  induction l generalizing s w with
  | nil =>
    unfold processTransactionSpends at h
    simp only [Except.ok.injEq, Prod.mk.injEq] at h
    obtain ⟨h1, _⟩ := h
    subst h1
    exact hcov
  | cons n rest ih =>
    unfold processTransactionSpends at h
    cases hmap : mapFind s.nullifierToNoteHash n with
    | none =>
      simp only [hmap] at h
      exact ih hcov h
    | some noteHash =>
      simp only [hmap] at h
      cases hnote : mapFind s.decryptedNotes noteHash with
      | none => rw [hnote] at h; exact absurd h (by simp)
      | some dn =>
        simp only [hnote] at h
        cases hupd : updateDecryptedNote s noteHash { dn with spent := !isRem } with
        | error e2 => rw [hupd] at h; exact absurd h (by simp)
        | ok p =>
          obtain ⟨s1, w1⟩ := p
          simp only [hupd] at h
          cases hrest : processTransactionSpends s1 isRem rest with
          | error e2 => rw [hrest] at h; exact absurd h (by simp)
          | ok q =>
            obtain ⟨s2, w2⟩ := q
            simp only [hrest, Except.ok.injEq, Prod.mk.injEq] at h
            obtain ⟨h1, _⟩ := h
            subst h1
            exact ih (updateDecryptedNote_preserves_cov hcov hupd) hrest

theorem dropFromSequenceBucket_mem {s : AccountState}
    {noteHash : Nat} (transactionHash : Nat) {x q : Nat} {b : List Nat}
    (hx : x ≠ noteHash)
    (hq : mapFind s.noteHashesBySequence q = some b) (hb : x ∈ b) :
    ∃ b2, mapFind
        (dropFromSequenceBucket s noteHash transactionHash).noteHashesBySequence q
      = some b2 ∧ x ∈ b2 := by
  unfold dropFromSequenceBucket
  cases hrec : mapFind s.transactions transactionHash with
  | none => exact ⟨b, hq, hb⟩
  | some record =>
    simp only [hrec]
    cases hsq : record.sequence with
    | none => exact ⟨b, hq, hb⟩
    | some sequence =>
      simp only [hsq]
      by_cases hz : sequence = 0
      · rw [if_neg (by simp [hz])]
        exact ⟨b, hq, hb⟩
      · rw [if_pos hz]
        cases hbk : mapFind s.noteHashesBySequence sequence with
        | none => exact ⟨b, hq, hb⟩
        | some noteHashes =>
          by_cases hqs : q = sequence
          · subst hqs
            rw [hq] at hbk
            simp only [Option.some.injEq] at hbk
            subst hbk
            refine ⟨setRemove b noteHash, ?_, (mem_setRemove _ _ _).mpr ⟨hb, hx⟩⟩
            show mapFind (mapSet s.noteHashesBySequence q (setRemove b noteHash)) q = _
            rw [mapFind_mapSet, if_pos rfl]
          · refine ⟨b, ?_, hb⟩
            show mapFind (mapSet s.noteHashesBySequence sequence _) q = _
            rw [mapFind_mapSet, if_neg hqs]
            exact hq

theorem dropFromSequenceBucket_nonChain (s : AccountState)
    (noteHash transactionHash : Nat) :
    (dropFromSequenceBucket s noteHash transactionHash).nonChainNoteHashes =
      s.nonChainNoteHashes := by
  obtain ⟨b, hdrop⟩ := dropFromSequenceBucket_fields s noteHash transactionHash
  rw [hdrop]

theorem deleteDecryptedNote_preserves_cov {s : AccountState}
    {noteHash transactionHash : Nat}
    (hcov : coverageInvariant s) :
    coverageInvariant (deleteDecryptedNote s noteHash transactionHash).1 := by
  obtain ⟨d1, d2, d3, d4, d5, d6, d7, d8, d9⟩ :=
    deleteDecryptedNote_fields s noteHash transactionHash
  intro x hx
  rw [d2, mapFind_mapErase] at hx
  by_cases hxn : x = noteHash
  · rw [if_pos hxn] at hx
    exact absurd hx (by simp)
  · rw [if_neg hxn] at hx
    rcases hcov x hx with ⟨q, b, hq, hb⟩ | hnc
    · have hq2 : mapFind
          (deleteBalanceAdjust s noteHash).1.noteHashesBySequence q = some b := by
        rw [deleteBalanceAdjust_fst]
        exact hq
      obtain ⟨b2, hq3, hb2⟩ :=
        dropFromSequenceBucket_mem transactionHash hxn hq2 hb
      exact Or.inl ⟨q, b2, hq3, hb2⟩
    · refine Or.inr ?_
      show x ∈ setRemove (dropFromSequenceBucket
        (deleteBalanceAdjust s noteHash).1 noteHash transactionHash).nonChainNoteHashes
        noteHash
      rw [dropFromSequenceBucket_nonChain, deleteBalanceAdjust_fst]
      exact (mem_setRemove _ _ _).mpr ⟨hnc, hxn⟩

theorem deleteTransactionNotes_preserves_cov {hash : Nat} {l : List Nat}
    {s : AccountState} (hcov : coverageInvariant s) :
    coverageInvariant (deleteTransactionNotes s hash l).1 := by
  induction l generalizing s with
  | nil => exact hcov
  | cons mh rest ih =>
    unfold deleteTransactionNotes
    cases hdn : mapFind s.decryptedNotes mh with
    | none =>
      simp only [hdn]
      exact ih hcov
    | some dn =>
      simp only [hdn]
      cases hnf : dn.nullifierHash with
      | none =>
        refine ih ?_
        exact deleteDecryptedNote_preserves_cov hcov
      | some nf =>
        refine ih ?_
        exact coverage_transfer
          (s := (deleteDecryptedNote s mh hash).1) rfl rfl rfl
          (deleteDecryptedNote_preserves_cov hcov)

theorem deleteTransaction_preserves_cov {s s' : AccountState} {hash : Nat}
    {t : Transaction} {w : List WriteEvent}
    (hcov : coverageInvariant s)
    (h : deleteTransaction s hash t = Except.ok (s', w)) :
    coverageInvariant s' := by
  unfold deleteTransaction at h
  dsimp only at h
  cases hsp : processTransactionSpends (deleteTransactionNotes s hash t.notes).1
      true t.spends with
  | error e => rw [hsp] at h; exact absurd h (by simp)
  | ok q =>
    obtain ⟨s2, w2⟩ := q
    simp only [hsp, Except.ok.injEq, Prod.mk.injEq] at h
    obtain ⟨h1, _⟩ := h
    subst h1
    refine coverage_transfer (s := s2) rfl rfl rfl ?_
    exact processTransactionSpends_preserves_cov
      (deleteTransactionNotes_preserves_cov hcov) hsp

theorem syncTransaction_preserves_cov {s s' : AccountState} {t : Transaction}
    {dns : List DecryptedNoteParams} {params : SyncTransactionParams}
    {w : List WriteEvent}
    (hcov : coverageInvariant s)
    (h : syncTransaction s t dns params = Except.ok (s', w)) :
    coverageInvariant s' := by
  unfold syncTransaction at h
  dsimp only at h
  obtain ⟨_, u2, _, u4, u5, _, _, _⟩ := upsertTransactionRecord_fields s t params
  cases hbulk : bulkUpdateDecryptedNotes s.id (upsertTransactionRecord s t params).1
      t.unsignedHash dns with
  | error e => rw [hbulk] at h; exact absurd h (by simp)
  | ok p =>
    obtain ⟨s2, w2⟩ := p
    simp only [hbulk] at h
    cases hsp : processTransactionSpends s2 (isRemovingFor s t params) t.spends with
    | error e => rw [hsp] at h; exact absurd h (by simp)
    | ok q =>
      obtain ⟨s3, w3⟩ := q
      simp only [hsp, Except.ok.injEq, Prod.mk.injEq] at h
      obtain ⟨h1, _⟩ := h
      subst h1
      refine processTransactionSpends_preserves_cov ?_ hsp
      refine bulkUpdateDecryptedNotes_preserves_cov ?_ hbulk
      exact coverage_transfer (s := s) u2 u4 u5 hcov

theorem loadDecryptedNotesAndBalance_preserves_cov
    {l : List (Nat × DecryptedNoteValue)} {t s3 : AccountState} {bal b : Int}
    (hcov : coverageInvariant t)
    (h : loadDecryptedNotesAndBalance t bal l = Except.ok (s3, b)) :
    coverageInvariant s3 := by
  induction l generalizing t bal with
  | nil =>
    unfold loadDecryptedNotesAndBalance at h
    simp only [Except.ok.injEq, Prod.mk.injEq] at h
    obtain ⟨h1, _⟩ := h
    subst h1
    exact hcov
  | cons p rest ih =>
    obtain ⟨hash, dn⟩ := p
    unfold loadDecryptedNotesAndBalance at h
    by_cases haid : dn.accountId = t.id
    · rw [if_pos haid] at h
      dsimp only at h
      cases hsds : saveDecryptedNoteSequence
          { t with decryptedNotes := mapSet t.decryptedNotes hash dn }
          dn.transactionHash hash with
      | error e => rw [hsds] at h; exact absurd h (by simp)
      | ok s2 =>
        simp only [hsds] at h
        refine ih ?_ h
        obtain ⟨hpres, htgt⟩ := saveDecryptedNoteSequence_union hsds
        obtain ⟨f1, f2, f3, f4, f5, f6, f7, f8⟩ :=
          saveDecryptedNoteSequence_ok_fields hsds
        intro x hx
        rw [f2] at hx
        have hx2 : (mapFind (mapSet t.decryptedNotes hash dn) x).isSome = true := hx
        rw [mapFind_mapSet] at hx2
        by_cases hxh : x = hash
        · rw [hxh]
          exact htgt
        · rw [if_neg hxh] at hx2
          refine hpres x ?_
          exact inUnion_transfer rfl rfl (hcov x hx2)
    · rw [if_neg haid] at h
      exact ih hcov h

theorem load_preserves_cov {s s' : AccountState} {w : List WriteEvent}
    (hcov : coverageInvariant s) (h : load s = Except.ok (s', w)) :
    coverageInvariant s' := by
  have hEq : load s =
      (match loadDecryptedNotesAndBalance
          { s with
            nullifierToNoteHash :=
              loadMapInto s.nullifierToNoteHash s.dbNullifierToNoteHash,
            transactions := loadMapInto s.transactions s.dbTransactions }
          0 s.dbDecryptedNotes with
        | Except.error e => Except.error e
        | Except.ok (s3, b) => Except.ok (saveUnconfirmedBalance s3 b)) := rfl
  rw [hEq] at h
  cases hld : loadDecryptedNotesAndBalance
      { s with
        nullifierToNoteHash :=
          loadMapInto s.nullifierToNoteHash s.dbNullifierToNoteHash,
        transactions := loadMapInto s.transactions s.dbTransactions }
      0 s.dbDecryptedNotes with
  | error e => rw [hld] at h; exact absurd h (by simp)
  | ok p =>
    obtain ⟨s3, b⟩ := p
    simp only [hld] at h
    simp only [saveUnconfirmedBalance, Except.ok.injEq, Prod.mk.injEq] at h
    obtain ⟨h1, _⟩ := h
    subst h1
    refine coverage_transfer (s := s3) rfl rfl rfl ?_
    refine loadDecryptedNotesAndBalance_preserves_cov ?_ hld
    exact coverage_transfer (s := s) rfl rfl rfl hcov

theorem reset_cov {s s' : AccountState} {w : List WriteEvent}
    (h : reset s = (s', w)) : coverageInvariant s' := by
  unfold reset saveUnconfirmedBalance at h
  simp only [Prod.mk.injEq] at h
  obtain ⟨h1, _⟩ := h
  subst h1
  intro x hx
  exact absurd hx (by simp [mapFind])

/-- C5 amended: in every state reachable by any sequence of successful engine
operations, every note hash held in the decrypted-note index appears in the
union of the Sequence-Index buckets and the Non-chain Note Set.  (The two sets
are neither disjoint nor free of stale hashes: see the counterexample.) -/
theorem reachable_note_coverage (s : AccountState) (h : Reachable s) :
    coverageInvariant s := by
  induction h with
  | init id dbN dbM dbT dbB =>
    intro x hx
    exact absurd hx (by simp [mapFind])
  | syncStep hr hop ih => exact syncTransaction_preserves_cov ih hop
  | updateStep hr hop ih => exact updateDecryptedNote_preserves_cov ih hop
  | deleteStep hr hop ih => exact deleteTransaction_preserves_cov ih hop
  | loadStep hr hop ih => exact load_preserves_cov ih hop
  | resetStep hr hop ih => exact reset_cov hop

def c5ResetState : AccountState :=
  ⟨0, [], [], [], [(10, [10])], [10],
   [(10, scnNote)], [(5, 10)], [(1, scnRecR)], 0⟩

/-- C5, the claim as stated is false: after syncing a Mined transaction and
re-syncing it with Removed status, its note sits in sequence bucket 10 and in
the non-chain set at once (disjointness fails), and after `reset` the bucket
and the non-chain set still hold the hash while the decrypted-note index is
empty (exact coverage fails). -/
theorem note_coverage_claim_counterexample :
    syncTransaction scnS0 scnTx1 [scnDn1] scnMined = Except.ok (scnS1, scnW1) ∧
    syncTransaction scnS1 scnTx1 [scnDn1] scnRemoved = Except.ok (scnS2, scnW2) ∧
    mapFind scnS2.noteHashesBySequence 10 = some [10] ∧
    10 ∈ scnS2.nonChainNoteHashes ∧
    reset scnS2 = (c5ResetState, [WriteEvent.saveUnconfirmedBalance 0]) ∧
    c5ResetState.decryptedNotes = [] ∧
    mapFind c5ResetState.noteHashesBySequence 10 = some [10] ∧
    10 ∈ c5ResetState.nonChainNoteHashes :=
  ⟨rfl, rfl, rfl, by decide, rfl, rfl, rfl, by decide⟩

theorem reachable_note_coverage_witness : inUnion scnS1 10 := by
  have hstep : syncTransaction scnS0 scnTx1 [scnDn1] scnMined =
      Except.ok (scnS1, scnW1) := by rfl
  exact reachable_note_coverage scnS1
    (Reachable.syncStep (Reachable.init 0 [] [] [] 0) hstep) 10 (by rfl)


/-! ## Claim C1: repeating a syncTransaction call -/

/-- The merkle hashes of the receive-side (non-spender) notes of a call. -/
def bulkHashes (l : List DecryptedNoteParams) : List Nat :=
  (l.filter (fun dn => !dn.forSpender)).map DecryptedNoteParams.merkleHash

theorem bulkHashes_cons_spender {dn : DecryptedNoteParams}
    {rest : List DecryptedNoteParams} (h : dn.forSpender = true) :
    bulkHashes (dn :: rest) = bulkHashes rest := by
  simp [bulkHashes, List.filter_cons, h]

theorem bulkHashes_cons_receive {dn : DecryptedNoteParams}
    {rest : List DecryptedNoteParams} (h : dn.forSpender = false) :
    bulkHashes (dn :: rest) = dn.merkleHash :: bulkHashes rest := by
  simp [bulkHashes, List.filter_cons, h]

theorem mem_bulkHashes {dn : DecryptedNoteParams} {l : List DecryptedNoteParams}
    (hm : dn ∈ l) (hfs : dn.forSpender = false) : dn.merkleHash ∈ bulkHashes l := by
  unfold bulkHashes
  refine List.mem_map.mpr ⟨dn, ?_, rfl⟩
  refine List.mem_filter.mpr ⟨hm, ?_⟩
  simp [hfs]

/-- The nullifier registrations the bulk pass performs, in order. -/
def bulkAssignments : List DecryptedNoteParams → List (Nat × Nat)
  | [] => []
  | dn :: rest =>
    if dn.forSpender then bulkAssignments rest
    else
      match dn.nullifier with
      | some nf => (nf, dn.merkleHash) :: bulkAssignments rest
      | none => bulkAssignments rest

theorem bulkAssignments_cons_spender {dn : DecryptedNoteParams}
    {rest : List DecryptedNoteParams} (h : dn.forSpender = true) :
    bulkAssignments (dn :: rest) = bulkAssignments rest := by
  rw [bulkAssignments, if_pos h]

theorem bulkAssignments_cons_none {dn : DecryptedNoteParams}
    {rest : List DecryptedNoteParams} (hfs : dn.forSpender = false)
    (hnf : dn.nullifier = none) :
    bulkAssignments (dn :: rest) = bulkAssignments rest := by
  rw [bulkAssignments, if_neg (by simp [hfs])]
  simp only [hnf]

theorem bulkAssignments_cons_some {dn : DecryptedNoteParams}
    {rest : List DecryptedNoteParams} {nf : Nat} (hfs : dn.forSpender = false)
    (hnf : dn.nullifier = some nf) :
    bulkAssignments (dn :: rest) = (nf, dn.merkleHash) :: bulkAssignments rest := by
  rw [bulkAssignments, if_neg (by simp [hfs])]
  simp only [hnf]

/-- The last value assigned to a key by a list of assignments. -/
def lookupLast {V : Type} : List (Nat × V) → Nat → Option V
  | [], _ => none
  | (a, b) :: rest, k =>
    match lookupLast rest k with
    | some v => some v
    | none => if k = a then some b else none

theorem mapFind_loadMapInto_last {V : Type} (l : List (Nat × V))
    (m : List (Nat × V)) (k : Nat) :
    mapFind (loadMapInto m l) k =
      match lookupLast l k with
      | some v => some v
      | none => mapFind m k := by
  induction l generalizing m with
  | nil => simp [loadMapInto, lookupLast]
  | cons p rest ih =>
    obtain ⟨a, b⟩ := p
    show mapFind (loadMapInto (mapSet m a b) rest) k = _
    rw [ih]
    show _ = (match (match lookupLast rest k with
        | some v => some v
        | none => if k = a then some b else none) with
      | some v => some v
      | none => mapFind m k)
    cases hlast : lookupLast rest k with
    | some v => rfl
    | none =>
      by_cases hk : k = a
      · simp [mapFind_mapSet, hk]
      · simp [mapFind_mapSet, hk]

theorem loadMapInto_absorb {V : Type} {l : List (Nat × V)}
    (m1 : List (Nat × V)) {m2 : List (Nat × V)}
    (habs : ∀ k, mapFind m2 k =
      match lookupLast l k with
      | some v => some v
      | none => mapFind m1 k) :
    ∀ k, mapFind (loadMapInto m2 l) k = mapFind m2 k := by
  intro k
  rw [mapFind_loadMapInto_last]
  cases hlast : lookupLast l k with
  | some v =>
    have := habs k
    rw [hlast] at this
    exact this.symm
  | none => rfl

theorem bulkUpdateDecryptedNotes_map {aid transactionHash : Nat}
    {l : List DecryptedNoteParams} {s s' : AccountState} {w : List WriteEvent}
    (h : bulkUpdateDecryptedNotes aid s transactionHash l = Except.ok (s', w)) :
    ∀ n, mapFind s'.nullifierToNoteHash n =
      mapFind (loadMapInto s.nullifierToNoteHash (bulkAssignments l)) n := by
  induction l generalizing s w with
  | nil =>
    unfold bulkUpdateDecryptedNotes at h
    simp only [Except.ok.injEq, Prod.mk.injEq] at h
    obtain ⟨h1, _⟩ := h
    subst h1
    intro n
    rfl
  | cons dn rest ih =>
    unfold bulkUpdateDecryptedNotes at h
    by_cases hfs : dn.forSpender
    · rw [if_pos hfs] at h
      intro n
      rw [ih h n, bulkAssignments_cons_spender hfs]
    · rw [if_neg hfs] at h
      dsimp only at h
      cases hnf : dn.nullifier with
      | none =>
        simp only [hnf] at h
        cases hupd : updateDecryptedNote s dn.merkleHash
            { accountId := aid, nullifierHash := dn.nullifier,
              noteIndex := dn.noteIndex, serializedNote := dn.serializedNote,
              spent := false, transactionHash := transactionHash } with
        | error e2 => rw [hnf] at hupd; rw [hupd] at h; exact absurd h (by simp)
        | ok p =>
          obtain ⟨s2, w2⟩ := p
          rw [hnf] at hupd
          simp only [hupd] at h
          cases hrest : bulkUpdateDecryptedNotes aid s2 transactionHash rest with
          | error e2 => rw [hrest] at h; exact absurd h (by simp)
          | ok q =>
            obtain ⟨s3, w3⟩ := q
            simp only [hrest, Except.ok.injEq, Prod.mk.injEq] at h
            obtain ⟨h1, _⟩ := h
            subst h1
            intro n
            rw [ih hrest n]
            obtain ⟨_, hmap2, _, _, _, _, _, _, _, _⟩ := updateDecryptedNote_ok hupd
            rw [hmap2,
              bulkAssignments_cons_none (Bool.eq_false_iff.mpr hfs) hnf]
      | some nf =>
        simp only [hnf] at h
        simp only [updateNullifierNoteHash] at h
        cases hupd : updateDecryptedNote
            { s with
                nullifierToNoteHash := mapSet s.nullifierToNoteHash nf dn.merkleHash,
                dbNullifierToNoteHash := mapSet s.dbNullifierToNoteHash nf dn.merkleHash }
            dn.merkleHash
            { accountId := aid, nullifierHash := some nf,
              noteIndex := dn.noteIndex, serializedNote := dn.serializedNote,
              spent := false, transactionHash := transactionHash } with
        | error e2 => rw [hupd] at h; exact absurd h (by simp)
        | ok p =>
          obtain ⟨s2, w2⟩ := p
          simp only [hupd] at h
          cases hrest : bulkUpdateDecryptedNotes aid s2 transactionHash rest with
          | error e2 => rw [hrest] at h; exact absurd h (by simp)
          | ok q =>
            obtain ⟨s3, w3⟩ := q
            simp only [hrest, Except.ok.injEq, Prod.mk.injEq] at h
            obtain ⟨h1, _⟩ := h
            subst h1
            intro n
            rw [ih hrest n]
            obtain ⟨_, hmap2, _, _, _, _, _, _, _, _⟩ := updateDecryptedNote_ok hupd
            rw [hmap2,
              bulkAssignments_cons_some (Bool.eq_false_iff.mpr hfs) hnf]
            rfl

theorem bulkUpdateDecryptedNotes_preserves_spentFalse {aid transactionHash : Nat}
    {l : List DecryptedNoteParams} {s s' : AccountState} {w : List WriteEvent}
    {h0 : Nat}
    (h : bulkUpdateDecryptedNotes aid s transactionHash l = Except.ok (s', w))
    (hp : ∃ e, mapFind s.decryptedNotes h0 = some e ∧ e.spent = false) :
    ∃ e, mapFind s'.decryptedNotes h0 = some e ∧ e.spent = false := by
  induction l generalizing s w with
  | nil =>
    unfold bulkUpdateDecryptedNotes at h
    simp only [Except.ok.injEq, Prod.mk.injEq] at h
    obtain ⟨h1, _⟩ := h
    subst h1
    exact hp
  | cons dn rest ih =>
    unfold bulkUpdateDecryptedNotes at h
    by_cases hfs : dn.forSpender
    · rw [if_pos hfs] at h
      exact ih h hp
    · rw [if_neg hfs] at h
      dsimp only at h
      cases hnf : dn.nullifier with
      | none =>
        simp only [hnf] at h
        cases hupd : updateDecryptedNote s dn.merkleHash
            { accountId := aid, nullifierHash := dn.nullifier,
              noteIndex := dn.noteIndex, serializedNote := dn.serializedNote,
              spent := false, transactionHash := transactionHash } with
        | error e2 => rw [hnf] at hupd; rw [hupd] at h; exact absurd h (by simp)
        | ok p =>
          obtain ⟨s2, w2⟩ := p
          rw [hnf] at hupd
          simp only [hupd] at h
          cases hrest : bulkUpdateDecryptedNotes aid s2 transactionHash rest with
          | error e2 => rw [hrest] at h; exact absurd h (by simp)
          | ok q =>
            obtain ⟨s3, w3⟩ := q
            simp only [hrest, Except.ok.injEq, Prod.mk.injEq] at h
            obtain ⟨h1, _⟩ := h
            subst h1
            obtain ⟨_, _, _, _, _, _, hnotes, _, _, _⟩ := updateDecryptedNote_ok hupd
            refine ih hrest ?_
            by_cases hh : h0 = dn.merkleHash
            · exact ⟨_, (hnotes h0).trans (if_pos hh), rfl⟩
            · obtain ⟨e, he, hes⟩ := hp
              exact ⟨e, ((hnotes h0).trans (if_neg hh)).trans he, hes⟩
      | some nf =>
        simp only [hnf] at h
        simp only [updateNullifierNoteHash] at h
        cases hupd : updateDecryptedNote
            { s with
                nullifierToNoteHash := mapSet s.nullifierToNoteHash nf dn.merkleHash,
                dbNullifierToNoteHash := mapSet s.dbNullifierToNoteHash nf dn.merkleHash }
            dn.merkleHash
            { accountId := aid, nullifierHash := some nf,
              noteIndex := dn.noteIndex, serializedNote := dn.serializedNote,
              spent := false, transactionHash := transactionHash } with
        | error e2 => rw [hupd] at h; exact absurd h (by simp)
        | ok p =>
          obtain ⟨s2, w2⟩ := p
          simp only [hupd] at h
          cases hrest : bulkUpdateDecryptedNotes aid s2 transactionHash rest with
          | error e2 => rw [hrest] at h; exact absurd h (by simp)
          | ok q =>
            obtain ⟨s3, w3⟩ := q
            simp only [hrest, Except.ok.injEq, Prod.mk.injEq] at h
            obtain ⟨h1, _⟩ := h
            subst h1
            obtain ⟨_, _, _, _, _, _, hnotes, _, _, _⟩ := updateDecryptedNote_ok hupd
            refine ih hrest ?_
            by_cases hh : h0 = dn.merkleHash
            · exact ⟨_, (hnotes h0).trans (if_pos hh), rfl⟩
            · obtain ⟨e, he, hes⟩ := hp
              exact ⟨e, ((hnotes h0).trans (if_neg hh)).trans he, hes⟩

theorem bulkUpdateDecryptedNotes_spent_false {aid transactionHash : Nat}
    {l : List DecryptedNoteParams} {s s' : AccountState} {w : List WriteEvent}
    (h : bulkUpdateDecryptedNotes aid s transactionHash l = Except.ok (s', w)) :
    ∀ h0 ∈ bulkHashes l,
      ∃ e, mapFind s'.decryptedNotes h0 = some e ∧ e.spent = false := by
  induction l generalizing s w with
  | nil =>
    intro h0 hm
    exact absurd hm (by simp [bulkHashes])
  | cons dn rest ih =>
    unfold bulkUpdateDecryptedNotes at h
    by_cases hfs : dn.forSpender
    · rw [if_pos hfs] at h
      intro h0 hm
      rw [bulkHashes_cons_spender hfs] at hm
      exact ih h h0 hm
    · rw [if_neg hfs] at h
      dsimp only at h
      have hfsf : dn.forSpender = false := Bool.eq_false_iff.mpr hfs
      cases hnf : dn.nullifier with
      | none =>
        simp only [hnf] at h
        cases hupd : updateDecryptedNote s dn.merkleHash
            { accountId := aid, nullifierHash := dn.nullifier,
              noteIndex := dn.noteIndex, serializedNote := dn.serializedNote,
              spent := false, transactionHash := transactionHash } with
        | error e2 => rw [hnf] at hupd; rw [hupd] at h; exact absurd h (by simp)
        | ok p =>
          obtain ⟨s2, w2⟩ := p
          rw [hnf] at hupd
          simp only [hupd] at h
          cases hrest : bulkUpdateDecryptedNotes aid s2 transactionHash rest with
          | error e2 => rw [hrest] at h; exact absurd h (by simp)
          | ok q =>
            obtain ⟨s3, w3⟩ := q
            simp only [hrest, Except.ok.injEq, Prod.mk.injEq] at h
            obtain ⟨h1, _⟩ := h
            subst h1
            intro h0 hm
            rw [bulkHashes_cons_receive hfsf] at hm
            rcases List.mem_cons.mp hm with hc | hc
            · obtain ⟨_, _, _, _, _, _, hnotes, _, _, _⟩ := updateDecryptedNote_ok hupd
              refine bulkUpdateDecryptedNotes_preserves_spentFalse hrest ?_
              exact ⟨_, (hnotes h0).trans (if_pos hc), rfl⟩
            · exact ih hrest h0 hc
      | some nf =>
        simp only [hnf] at h
        simp only [updateNullifierNoteHash] at h
        cases hupd : updateDecryptedNote
            { s with
                nullifierToNoteHash := mapSet s.nullifierToNoteHash nf dn.merkleHash,
                dbNullifierToNoteHash := mapSet s.dbNullifierToNoteHash nf dn.merkleHash }
            dn.merkleHash
            { accountId := aid, nullifierHash := some nf,
              noteIndex := dn.noteIndex, serializedNote := dn.serializedNote,
              spent := false, transactionHash := transactionHash } with
        | error e2 => rw [hupd] at h; exact absurd h (by simp)
        | ok p =>
          obtain ⟨s2, w2⟩ := p
          simp only [hupd] at h
          cases hrest : bulkUpdateDecryptedNotes aid s2 transactionHash rest with
          | error e2 => rw [hrest] at h; exact absurd h (by simp)
          | ok q =>
            obtain ⟨s3, w3⟩ := q
            simp only [hrest, Except.ok.injEq, Prod.mk.injEq] at h
            obtain ⟨h1, _⟩ := h
            subst h1
            intro h0 hm
            rw [bulkHashes_cons_receive hfsf] at hm
            rcases List.mem_cons.mp hm with hc | hc
            · obtain ⟨_, _, _, _, _, _, hnotes, _, _, _⟩ := updateDecryptedNote_ok hupd
              refine bulkUpdateDecryptedNotes_preserves_spentFalse hrest ?_
              exact ⟨_, (hnotes h0).trans (if_pos hc), rfl⟩
            · exact ih hrest h0 hc

theorem bulkUpdateDecryptedNotes_untouched {aid transactionHash : Nat}
    {l : List DecryptedNoteParams} {s s' : AccountState} {w : List WriteEvent}
    (h : bulkUpdateDecryptedNotes aid s transactionHash l = Except.ok (s', w))
    {h0 : Nat} (hout : h0 ∉ bulkHashes l) :
    mapFind s'.decryptedNotes h0 = mapFind s.decryptedNotes h0 := by
  induction l generalizing s w with
  | nil =>
    unfold bulkUpdateDecryptedNotes at h
    simp only [Except.ok.injEq, Prod.mk.injEq] at h
    obtain ⟨h1, _⟩ := h
    subst h1
    rfl
  | cons dn rest ih =>
    unfold bulkUpdateDecryptedNotes at h
    by_cases hfs : dn.forSpender
    · rw [if_pos hfs] at h
      rw [bulkHashes_cons_spender hfs] at hout
      exact ih h hout
    · rw [if_neg hfs] at h
      dsimp only at h
      have hfsf : dn.forSpender = false := Bool.eq_false_iff.mpr hfs
      rw [bulkHashes_cons_receive hfsf] at hout
      have hne : h0 ≠ dn.merkleHash := fun hc => hout (List.mem_cons.mpr (Or.inl hc))
      have hout2 : h0 ∉ bulkHashes rest := fun hc => hout (List.mem_cons.mpr (Or.inr hc))
      cases hnf : dn.nullifier with
      | none =>
        simp only [hnf] at h
        cases hupd : updateDecryptedNote s dn.merkleHash
            { accountId := aid, nullifierHash := dn.nullifier,
              noteIndex := dn.noteIndex, serializedNote := dn.serializedNote,
              spent := false, transactionHash := transactionHash } with
        | error e2 => rw [hnf] at hupd; rw [hupd] at h; exact absurd h (by simp)
        | ok p =>
          obtain ⟨s2, w2⟩ := p
          rw [hnf] at hupd
          simp only [hupd] at h
          cases hrest : bulkUpdateDecryptedNotes aid s2 transactionHash rest with
          | error e2 => rw [hrest] at h; exact absurd h (by simp)
          | ok q =>
            obtain ⟨s3, w3⟩ := q
            simp only [hrest, Except.ok.injEq, Prod.mk.injEq] at h
            obtain ⟨h1, _⟩ := h
            subst h1
            obtain ⟨_, _, _, _, _, _, hnotes, _, _, _⟩ := updateDecryptedNote_ok hupd
            rw [ih hrest hout2, hnotes h0, if_neg hne]
      | some nf =>
        simp only [hnf] at h
        simp only [updateNullifierNoteHash] at h
        cases hupd : updateDecryptedNote
            { s with
                nullifierToNoteHash := mapSet s.nullifierToNoteHash nf dn.merkleHash,
                dbNullifierToNoteHash := mapSet s.dbNullifierToNoteHash nf dn.merkleHash }
            dn.merkleHash
            { accountId := aid, nullifierHash := some nf,
              noteIndex := dn.noteIndex, serializedNote := dn.serializedNote,
              spent := false, transactionHash := transactionHash } with
        | error e2 => rw [hupd] at h; exact absurd h (by simp)
        | ok p =>
          obtain ⟨s2, w2⟩ := p
          simp only [hupd] at h
          cases hrest : bulkUpdateDecryptedNotes aid s2 transactionHash rest with
          | error e2 => rw [hrest] at h; exact absurd h (by simp)
          | ok q =>
            obtain ⟨s3, w3⟩ := q
            simp only [hrest, Except.ok.injEq, Prod.mk.injEq] at h
            obtain ⟨h1, _⟩ := h
            subst h1
            obtain ⟨_, _, _, _, _, _, hnotes, _, _, _⟩ := updateDecryptedNote_ok hupd
            rw [ih hrest hout2, hnotes h0, if_neg hne]


theorem processTransactionSpends_untouched {isRem : Bool} {l : List Nat}
    {s s' : AccountState} {w : List WriteEvent} {h0 : Nat}
    (h : processTransactionSpends s isRem l = Except.ok (s', w))
    (hno : ∀ n ∈ l, mapFind s.nullifierToNoteHash n ≠ some h0) :
    mapFind s'.decryptedNotes h0 = mapFind s.decryptedNotes h0 := by
  induction l generalizing s w with
  | nil =>
    unfold processTransactionSpends at h
    simp only [Except.ok.injEq, Prod.mk.injEq] at h
    obtain ⟨h1, _⟩ := h
    subst h1
    rfl
  | cons n rest ih =>
    unfold processTransactionSpends at h
    cases hmap : mapFind s.nullifierToNoteHash n with
    | none =>
      simp only [hmap] at h
      exact ih h (fun n2 hn2 => hno n2 (List.mem_cons_of_mem _ hn2))
    | some noteHash =>
      simp only [hmap] at h
      cases hnote : mapFind s.decryptedNotes noteHash with
      | none => rw [hnote] at h; exact absurd h (by simp)
      | some dn =>
        simp only [hnote] at h
        cases hupd : updateDecryptedNote s noteHash { dn with spent := !isRem } with
        | error e2 => rw [hupd] at h; exact absurd h (by simp)
        | ok p =>
          obtain ⟨s1, w1⟩ := p
          simp only [hupd] at h
          cases hrest : processTransactionSpends s1 isRem rest with
          | error e2 => rw [hrest] at h; exact absurd h (by simp)
          | ok q =>
            obtain ⟨s2, w2⟩ := q
            simp only [hrest, Except.ok.injEq, Prod.mk.injEq] at h
            obtain ⟨h1, _⟩ := h
            subst h1
            obtain ⟨_, hm1, _, _, _, _, hnotes, _, _, _⟩ := updateDecryptedNote_ok hupd
            have hne : h0 ≠ noteHash := by
              intro hc
              exact hno n (List.mem_cons_self _ _) (hc ▸ hmap)
            have hno2 : ∀ n2 ∈ rest, mapFind s1.nullifierToNoteHash n2 ≠ some h0 := by
              intro n2 hn2
              rw [hm1]
              exact hno n2 (List.mem_cons_of_mem _ hn2)
            rw [ih hrest hno2, hnotes h0, if_neg hne]

theorem processTransactionSpends_stable {isRem : Bool} {l : List Nat}
    {s s' : AccountState} {w : List WriteEvent}
    (h : processTransactionSpends s isRem l = Except.ok (s', w))
    (hpre : ∀ n ∈ l, ∀ nh, mapFind s.nullifierToNoteHash n = some nh →
      ∃ e, mapFind s.decryptedNotes nh = some e ∧ e.spent = (!isRem)) :
    s'.dbUnconfirmedBalance = s.dbUnconfirmedBalance ∧
    ∀ b, WriteEvent.saveUnconfirmedBalance b ∉ w := by
  induction l generalizing s w with
  | nil =>
    unfold processTransactionSpends at h
    simp only [Except.ok.injEq, Prod.mk.injEq] at h
    obtain ⟨h1, h2⟩ := h
    subst h1
    subst h2
    exact ⟨rfl, by intro b hb; exact absurd hb (by simp)⟩
  | cons n rest ih =>
    unfold processTransactionSpends at h
    cases hmap : mapFind s.nullifierToNoteHash n with
    | none =>
      simp only [hmap] at h
      exact ih h (fun n2 hn2 => hpre n2 (List.mem_cons_of_mem _ hn2))
    | some noteHash =>
      simp only [hmap] at h
      cases hnote : mapFind s.decryptedNotes noteHash with
      | none => rw [hnote] at h; exact absurd h (by simp)
      | some dn =>
        simp only [hnote] at h
        cases hupd : updateDecryptedNote s noteHash { dn with spent := !isRem } with
        | error e2 => rw [hupd] at h; exact absurd h (by simp)
        | ok p =>
          obtain ⟨s1, w1⟩ := p
          simp only [hupd] at h
          cases hrest : processTransactionSpends s1 isRem rest with
          | error e2 => rw [hrest] at h; exact absurd h (by simp)
          | ok q =>
            obtain ⟨s2, w2⟩ := q
            simp only [hrest, Except.ok.injEq, Prod.mk.injEq] at h
            obtain ⟨h1, h2⟩ := h
            subst h1
            subst h2
            obtain ⟨e, he, hes⟩ := hpre n (List.mem_cons_self _ _) noteHash hmap
            rw [hnote] at he
            simp only [Option.some.injEq] at he
            subst he
            obtain ⟨_, hm1, _, _, _, hbal, hnotes, _, _, hsame⟩ :=
              updateDecryptedNote_ok hupd
            have hw1 : w1 = [WriteEvent.saveDecryptedNote noteHash] :=
              hsame _ hnote (by rw [hes])
            have hbal1 : s1.dbUnconfirmedBalance = s.dbUnconfirmedBalance := by
              rw [hbal, hnote]
              simp [updatedBalance, hes]
            have hpre2 : ∀ n2 ∈ rest, ∀ nh,
                mapFind s1.nullifierToNoteHash n2 = some nh →
                ∃ e2, mapFind s1.decryptedNotes nh = some e2 ∧
                  e2.spent = (!isRem) := by
              intro n2 hn2 nh hfind
              rw [hm1] at hfind
              obtain ⟨e2, he2, hes2⟩ := hpre n2 (List.mem_cons_of_mem _ hn2) nh hfind
              by_cases hh : nh = noteHash
              · exact ⟨_, (hnotes nh).trans (if_pos hh), rfl⟩
              · exact ⟨e2, ((hnotes nh).trans (if_neg hh)).trans he2, hes2⟩
            obtain ⟨hbal2, hev2⟩ := ih hrest hpre2
            refine ⟨hbal2.trans hbal1, ?_⟩
            intro b hb
            rcases List.mem_append.mp hb with hb1 | hb2
            · rw [hw1] at hb1
              exact absurd hb1 (by simp)
            · exact hev2 b hb2

theorem bulkUpdateDecryptedNotes_stable {aid transactionHash : Nat}
    {l : List DecryptedNoteParams} {s s' : AccountState} {w : List WriteEvent}
    (h : bulkUpdateDecryptedNotes aid s transactionHash l = Except.ok (s', w))
    (hpre : ∀ dn ∈ l, dn.forSpender = false →
      ∃ e, mapFind s.decryptedNotes dn.merkleHash = some e ∧ e.spent = false) :
    s'.dbUnconfirmedBalance = s.dbUnconfirmedBalance ∧
    ∀ b, WriteEvent.saveUnconfirmedBalance b ∉ w := by
  induction l generalizing s w with
  | nil =>
    unfold bulkUpdateDecryptedNotes at h
    simp only [Except.ok.injEq, Prod.mk.injEq] at h
    obtain ⟨h1, h2⟩ := h
    subst h1
    subst h2
    exact ⟨rfl, by intro b hb; exact absurd hb (by simp)⟩
  | cons dn rest ih =>
    unfold bulkUpdateDecryptedNotes at h
    by_cases hfs : dn.forSpender
    · rw [if_pos hfs] at h
      exact ih h (fun dn2 hdn2 => hpre dn2 (List.mem_cons_of_mem _ hdn2))
    · rw [if_neg hfs] at h
      dsimp only at h
      have hfsf : dn.forSpender = false := Bool.eq_false_iff.mpr hfs
      obtain ⟨e, he, hes⟩ := hpre dn (List.mem_cons_self _ _) hfsf
      cases hnf : dn.nullifier with
      | none =>
        simp only [hnf] at h
        cases hupd : updateDecryptedNote s dn.merkleHash
            { accountId := aid, nullifierHash := dn.nullifier,
              noteIndex := dn.noteIndex, serializedNote := dn.serializedNote,
              spent := false, transactionHash := transactionHash } with
        | error e2 => rw [hnf] at hupd; rw [hupd] at h; exact absurd h (by simp)
        | ok p =>
          obtain ⟨s2, w2⟩ := p
          rw [hnf] at hupd
          simp only [hupd] at h
          cases hrest : bulkUpdateDecryptedNotes aid s2 transactionHash rest with
          | error e2 => rw [hrest] at h; exact absurd h (by simp)
          | ok q =>
            obtain ⟨s3, w3⟩ := q
            simp only [hrest, Except.ok.injEq, Prod.mk.injEq] at h
            obtain ⟨h1, h2⟩ := h
            subst h1
            subst h2
            obtain ⟨_, _, _, _, _, hbal, hnotes, _, _, hsame⟩ :=
              updateDecryptedNote_ok hupd
            have hw2 : w2 = [WriteEvent.saveDecryptedNote dn.merkleHash] :=
              hsame _ he (by rw [hes])
            have hbal1 : s2.dbUnconfirmedBalance = s.dbUnconfirmedBalance := by
              rw [hbal, he]
              simp [updatedBalance, hes]
            have hpre2 : ∀ dn2 ∈ rest, dn2.forSpender = false →
                ∃ e2, mapFind s2.decryptedNotes dn2.merkleHash = some e2 ∧
                  e2.spent = false := by
              intro dn2 hdn2 hfs2
              obtain ⟨e2, he2, hes2⟩ := hpre dn2 (List.mem_cons_of_mem _ hdn2) hfs2
              by_cases hh : dn2.merkleHash = dn.merkleHash
              · exact ⟨_, (hnotes dn2.merkleHash).trans (if_pos hh), rfl⟩
              · exact ⟨e2,
                  ((hnotes dn2.merkleHash).trans (if_neg hh)).trans he2, hes2⟩
            obtain ⟨hbal2, hev2⟩ := ih hrest hpre2
            refine ⟨hbal2.trans hbal1, ?_⟩
            intro b hb
            rcases List.mem_append.mp hb with hb1 | hb2
            · rcases List.mem_append.mp hb1 with hb0 | hb1
              · exact absurd hb0 (by simp)
              · rw [hw2] at hb1
                exact absurd hb1 (by simp)
            · exact hev2 b hb2
      | some nf =>
        simp only [hnf] at h
        simp only [updateNullifierNoteHash] at h
        cases hupd : updateDecryptedNote
            { s with
                nullifierToNoteHash := mapSet s.nullifierToNoteHash nf dn.merkleHash,
                dbNullifierToNoteHash := mapSet s.dbNullifierToNoteHash nf dn.merkleHash }
            dn.merkleHash
            { accountId := aid, nullifierHash := some nf,
              noteIndex := dn.noteIndex, serializedNote := dn.serializedNote,
              spent := false, transactionHash := transactionHash } with
        | error e2 => rw [hupd] at h; exact absurd h (by simp)
        | ok p =>
          obtain ⟨s2, w2⟩ := p
          simp only [hupd] at h
          cases hrest : bulkUpdateDecryptedNotes aid s2 transactionHash rest with
          | error e2 => rw [hrest] at h; exact absurd h (by simp)
          | ok q =>
            obtain ⟨s3, w3⟩ := q
            simp only [hrest, Except.ok.injEq, Prod.mk.injEq] at h
            obtain ⟨h1, h2⟩ := h
            subst h1
            subst h2
            obtain ⟨_, _, _, _, _, hbal, hnotes, _, _, hsame⟩ :=
              updateDecryptedNote_ok hupd
            have hw2 : w2 = [WriteEvent.saveDecryptedNote dn.merkleHash] :=
              hsame _ he (by rw [hes])
            have hbal1 : s2.dbUnconfirmedBalance = s.dbUnconfirmedBalance := by
              rw [hbal]
              show updatedBalance s.dbUnconfirmedBalance
                (mapFind s.decryptedNotes dn.merkleHash) _ = _
              rw [he]
              simp [updatedBalance, hes]
            have hpre2 : ∀ dn2 ∈ rest, dn2.forSpender = false →
                ∃ e2, mapFind s2.decryptedNotes dn2.merkleHash = some e2 ∧
                  e2.spent = false := by
              intro dn2 hdn2 hfs2
              obtain ⟨e2, he2, hes2⟩ := hpre dn2 (List.mem_cons_of_mem _ hdn2) hfs2
              by_cases hh : dn2.merkleHash = dn.merkleHash
              · exact ⟨_, (hnotes dn2.merkleHash).trans (if_pos hh), rfl⟩
              · refine ⟨e2, ?_, hes2⟩
                rw [hnotes dn2.merkleHash, if_neg hh]
                exact he2
            obtain ⟨hbal2, hev2⟩ := ih hrest hpre2
            refine ⟨hbal2.trans hbal1, ?_⟩
            intro b hb
            rcases List.mem_append.mp hb with hb1 | hb2
            · rcases List.mem_append.mp hb1 with hb0 | hb1
              · exact absurd hb0 (by simp)
              · rw [hw2] at hb1
                exact absurd hb1 (by simp)
            · exact hev2 b hb2

theorem upsertTransactionRecord_new {s : AccountState} {transaction : Transaction}
    {params : SyncTransactionParams}
    (hrec : mapFind s.transactions transaction.unsignedHash = none) :
    upsertTransactionRecord s transaction params =
      updateTransaction s transaction.unsignedHash
        ⟨transaction, params.blockHash, params.sequence,
          mergedSubmittedSequence s transaction params⟩ := by
  unfold upsertTransactionRecord
  simp [hrec]

theorem syncTransaction_decompose {s s' : AccountState} {t : Transaction}
    {A : List DecryptedNoteParams} {params : SyncTransactionParams}
    {w : List WriteEvent}
    (h : syncTransaction s t A params = Except.ok (s', w)) :
    ∃ sB wB wS,
      bulkUpdateDecryptedNotes s.id (upsertTransactionRecord s t params).1
        t.unsignedHash A = Except.ok (sB, wB) ∧
      processTransactionSpends sB (isRemovingFor s t params) t.spends =
        Except.ok (s', wS) ∧
      w = (upsertTransactionRecord s t params).2 ++ wB ++ wS := by
  unfold syncTransaction at h
  dsimp only at h
  cases hbulk : bulkUpdateDecryptedNotes s.id (upsertTransactionRecord s t params).1
      t.unsignedHash A with
  | error e => rw [hbulk] at h; exact absurd h (by simp)
  | ok p =>
    obtain ⟨sB, wB⟩ := p
    simp only [hbulk] at h
    cases hsp : processTransactionSpends sB (isRemovingFor s t params) t.spends with
    | error e => rw [hsp] at h; exact absurd h (by simp)
    | ok q =>
      obtain ⟨s3, wS⟩ := q
      simp only [hsp, Except.ok.injEq, Prod.mk.injEq] at h
      obtain ⟨h1, h2⟩ := h
      subst h1
      exact ⟨sB, wB, wS, rfl, hsp, h2.symm⟩

theorem syncTransaction_record_after {s s' : AccountState} {t : Transaction}
    {A : List DecryptedNoteParams} {params : SyncTransactionParams}
    {w : List WriteEvent}
    (h : syncTransaction s t A params = Except.ok (s', w)) :
    ∃ r, mapFind s'.transactions t.unsignedHash = some r ∧
      r.transaction = t ∧ r.blockHash = params.blockHash ∧
      r.submittedSequence = mergedSubmittedSequence s t params := by
  obtain ⟨sB, wB, wS, hbulk, hsp, _⟩ := syncTransaction_decompose h
  obtain ⟨_, hbt, _, _⟩ := bulkUpdateDecryptedNotes_ok hbulk
  obtain ⟨_, hst, _, _, _, _⟩ := processTransactionSpends_ok hsp
  cases hrec : mapFind s.transactions t.unsignedHash with
  | none =>
    refine ⟨⟨t, params.blockHash, params.sequence,
      mergedSubmittedSequence s t params⟩, ?_, rfl, rfl, rfl⟩
    rw [hst, hbt, upsertTransactionRecord_new hrec]
    show mapFind (mapSet s.transactions t.unsignedHash _) t.unsignedHash = _
    rw [mapFind_mapSet, if_pos rfl]
  | some r0 =>
    by_cases hcond : r0.transaction = t ∧ r0.blockHash = params.blockHash
    · refine ⟨r0, ?_, hcond.1, hcond.2, ?_⟩
      · rw [hst, hbt, upsertTransactionRecord_no_write hrec hcond.1 hcond.2]
        exact hrec
      · show r0.submittedSequence = _
        unfold mergedSubmittedSequence
        rw [hrec]
    · have hms : mergedSubmittedSequence s t params = r0.submittedSequence := by
        unfold mergedSubmittedSequence
        rw [hrec]
      refine ⟨⟨t, params.blockHash, params.sequence,
        mergedSubmittedSequence s t params⟩, ?_, rfl, rfl, rfl⟩
      rw [hst, hbt, upsertTransactionRecord_write hrec hcond, hms]
      show mapFind (mapSet s.transactions t.unsignedHash _) t.unsignedHash = _
      rw [mapFind_mapSet, if_pos rfl]

/-- C1 amended: a `syncTransaction` call immediately repeated with identical
transaction, identical decrypted-note list and identical status payload leaves
the unconfirmed balance unchanged, writes no transaction record and no
balance, provided no spend nullifier of the transaction resolves (in the state
after the first call) to one of the call's own receive-note hashes; the
second call does, however, re-issue the `saveNullifierNoteHash` and
`saveDecryptedNote` point writes. -/
theorem syncTransaction_repeat_stable
    (s0 s1 s2 : AccountState) (t : Transaction) (A : List DecryptedNoteParams)
    (params : SyncTransactionParams) (w1 w2 : List WriteEvent)
    (h1 : syncTransaction s0 t A params = Except.ok (s1, w1))
    (h2 : syncTransaction s1 t A params = Except.ok (s2, w2))
    (hns : ∀ n ∈ t.spends, ∀ nh, mapFind s1.nullifierToNoteHash n = some nh →
      nh ∉ bulkHashes A) :
    s2.dbUnconfirmedBalance = s1.dbUnconfirmedBalance ∧
    (∀ hh, WriteEvent.saveTransaction hh ∉ w2) ∧
    (∀ b, WriteEvent.saveUnconfirmedBalance b ∉ w2) := by
  obtain ⟨r1, hr1, hrt, hrb, hrs⟩ := syncTransaction_record_after h1
  obtain ⟨sB1, wB1, wS1, hbulk1, hsp1, hw1⟩ := syncTransaction_decompose h1
  obtain ⟨sB2, wB2, wS2, hbulk2, hsp2, hw2⟩ := syncTransaction_decompose h2
  have hup2 : upsertTransactionRecord s1 t params = (s1, []) :=
    upsertTransactionRecord_no_write hr1 hrt hrb
  rw [hup2] at hbulk2 hw2
  obtain ⟨hSid1, hSt1, _, hSm1, _, _⟩ := processTransactionSpends_ok hsp1
  have hmapAbsorb : ∀ n, mapFind sB2.nullifierToNoteHash n =
      mapFind s1.nullifierToNoteHash n := by
    intro n
    rw [bulkUpdateDecryptedNotes_map hbulk2 n]
    refine loadMapInto_absorb
      ((upsertTransactionRecord s0 t params).1.nullifierToNoteHash) ?_ n
    intro k
    rw [hSm1, bulkUpdateDecryptedNotes_map hbulk1 k, mapFind_loadMapInto_last]
  have hremEq : isRemovingFor s1 t params = isRemovingFor s0 t params := by
    have hm1 : mergedSubmittedSequence s1 t params = r1.submittedSequence := by
      unfold mergedSubmittedSequence
      rw [hr1]
    unfold isRemovingFor
    rw [hm1, hrs]
  have hsf : ∀ dn ∈ A, dn.forSpender = false →
      ∃ e, mapFind s1.decryptedNotes dn.merkleHash = some e ∧ e.spent = false := by
    intro dn hdn hfs
    have hmh : dn.merkleHash ∈ bulkHashes A := mem_bulkHashes hdn hfs
    have hun : mapFind s1.decryptedNotes dn.merkleHash =
        mapFind sB1.decryptedNotes dn.merkleHash := by
      refine processTransactionSpends_untouched hsp1 ?_
      intro n hn hcontra
      exact hns n hn dn.merkleHash (by rw [hSm1]; exact hcontra) hmh
    rw [hun]
    exact bulkUpdateDecryptedNotes_spent_false hbulk1 dn.merkleHash hmh
  obtain ⟨hBbal2, hBev2⟩ := bulkUpdateDecryptedNotes_stable hbulk2 hsf
  have hpre2 : ∀ n ∈ t.spends, ∀ nh, mapFind sB2.nullifierToNoteHash n = some nh →
      ∃ e, mapFind sB2.decryptedNotes nh = some e ∧
        e.spent = (!(isRemovingFor s1 t params)) := by
    intro n hn nh hfind
    rw [hmapAbsorb n] at hfind
    have hout := hns n hn nh hfind
    have hfindB : mapFind sB1.nullifierToNoteHash n = some nh := by
      rw [← hSm1]
      exact hfind
    obtain ⟨e, he1, hes1⟩ := processTransactionSpends_post hsp1 n hn nh hfindB
    have hun2 : mapFind sB2.decryptedNotes nh = mapFind s1.decryptedNotes nh :=
      bulkUpdateDecryptedNotes_untouched hbulk2 hout
    refine ⟨e, by rw [hun2]; exact he1, ?_⟩
    rw [hremEq]
    exact hes1
  obtain ⟨hSbal2, hSev2⟩ := processTransactionSpends_stable hsp2 hpre2
  obtain ⟨_, _, _, hBkinds⟩ := bulkUpdateDecryptedNotes_ok hbulk2
  obtain ⟨_, _, _, _, _, hSkinds⟩ := processTransactionSpends_ok hsp2
  refine ⟨hSbal2.trans hBbal2, ?_, ?_⟩
  · intro hh hmem
    rw [hw2] at hmem
    rcases List.mem_append.mp hmem with hm | hm
    · rcases List.mem_append.mp hm with hm0 | hm1
      · exact absurd hm0 (by simp)
      · rcases hBkinds _ hm1 with ⟨n2, hn2⟩ | ⟨b2, hb2⟩ | ⟨nh2, hnh2⟩ <;> simp_all
    · rcases hSkinds _ hm with ⟨b2, hb2⟩ | ⟨nh2, hnh2⟩ <;> simp_all
  · intro b hmem
    rw [hw2] at hmem
    rcases List.mem_append.mp hmem with hm | hm
    · rcases List.mem_append.mp hm with hm0 | hm1
      · exact absurd hm0 (by simp)
      · exact hBev2 b hm1
    · exact hSev2 b hm

/-- C1, the claim as stated is false: repeating the Mined sync of the scenario
transaction leaves the state unchanged, but the second call still performs
persisted `saveNullifierNoteHash` and `saveDecryptedNote` writes. -/
theorem syncTransaction_repeat_counterexample :
    syncTransaction scnS0 scnTx1 [scnDn1] scnMined = Except.ok (scnS1, scnW1) ∧
    syncTransaction scnS1 scnTx1 [scnDn1] scnMined =
      Except.ok (scnS1,
        [WriteEvent.saveNullifierNoteHash 5, WriteEvent.saveDecryptedNote 10]) ∧
    WriteEvent.saveNullifierNoteHash 5 ∈
      [WriteEvent.saveNullifierNoteHash 5, WriteEvent.saveDecryptedNote 10] ∧
    WriteEvent.saveDecryptedNote 10 ∈
      [WriteEvent.saveNullifierNoteHash 5, WriteEvent.saveDecryptedNote 10] :=
  ⟨rfl, rfl, by decide, by decide⟩

theorem syncTransaction_repeat_stable_witness :
    scnS1.dbUnconfirmedBalance = scnS1.dbUnconfirmedBalance ∧
    (∀ hh, WriteEvent.saveTransaction hh ∉
      [WriteEvent.saveNullifierNoteHash 5, WriteEvent.saveDecryptedNote 10]) ∧
    (∀ b, WriteEvent.saveUnconfirmedBalance b ∉
      [WriteEvent.saveNullifierNoteHash 5, WriteEvent.saveDecryptedNote 10]) :=
  syncTransaction_repeat_stable scnS0 scnS1 scnS1 scnTx1 [scnDn1] scnMined
    scnW1 [WriteEvent.saveNullifierNoteHash 5, WriteEvent.saveDecryptedNote 10]
    (by rfl) (by rfl) (by intro n hn; exact absurd hn (by simp [scnTx1]))

end Wallet
